import Mathlib

/-!
Verification of the hex-validator pipeline engine against its specification.

The definitions below are a shallow embedding of the TypeScript sources:

* `src/src/core/orchestrator.ts` — the stage scheduler (`runValidation`,
  `runTask`, `runSequential`, `runParallel`, `sortResultsByTaskOrder`);
* `src/unnamed/part_005` — the git scope resolver (`getStagedFiles`,
  `getChangedFilesAgainstUpstream`);
* `src/unnamed/part_008` — the tool prober (`detectTool`);
* `src/unnamed/part_006` — the finding aggregator (`aggregateByRule`);
* `src/src/cli/cli.ts` — the driver (`parseArgs`, `buildOptions`, `main`);
* the shared types (`Message`, `PluginResult`, `StageSpec`, ...).

Modelling conventions:

* Asynchronous functions are modelled as pure functions; a check's promise
  either resolves (`TaskOutcome.ok`) or rejects (`TaskOutcome.threw`).
* Subprocess execution is modelled by an oracle `GitOracle` / `ProbeResult`
  giving the exit code and captured output of each spawned command.
* Wall-clock durations (`Date.now()` deltas) are modelled by an ambient
  `dur : Nat` parameter; they are never inspected by the engine.
* A JavaScript `Map` is modelled as an insertion-ordered association list
  (`lookupA` / `setA`), matching `Map.get` / `Map.set` semantics.
* `Array.prototype.sort` is stable (ECMA-262); it is modelled by
  `List.insertionSort`, which is a stable sort for the comparator's preorder.
* The completion order of a parallel stage's worker pool is modelled by an
  adversarial list `π` of task indices; every order the pool can produce is
  some such `π`, so universally quantified theorems cover the real pool.
-/

namespace HexValidator

/-! ## Data model (`@validator/types`, see `src/src/validators/contract-tests.ts`) -/

/-- `Scope = 'staged' | 'changed' | 'full'`. -/
inductive Scope
  | staged
  | changed
  | full
deriving DecidableEq, Repr

/-- `E2EMode = 'auto' | 'always' | 'off'`. -/
inductive E2EMode
  | auto
  | always
  | off
deriving DecidableEq, Repr

/-- `Status = 'pass' | 'fail' | 'warn' | 'skipped'`. -/
inductive Status
  | pass
  | fail
  | warn
  | skipped
deriving DecidableEq, Repr

/-- The severity level of a message/finding: `'info' | 'warn' | 'error'`. -/
inductive Level
  | info
  | warn
  | error
deriving DecidableEq, Repr

/-- `Message` — one finding.  Optional TS fields become `Option`. -/
structure Message where
  level : Level
  file : Option String := none
  line : Option Nat := none
  col : Option Nat := none
  code : Option String := none
  message : String
  suggestion : Option String := none
  fixable : Option Bool := none
deriving DecidableEq, Repr

/-- `PluginResult`.  The free-form `artifacts` map is omitted: no claim and no
engine code path inspects it. -/
structure PluginResult where
  name : String
  status : Status
  messages : Option (List Message) := none
  stdout : Option String := none
  stderr : Option String := none
  durationMs : Option Nat := none
  stage : Option String := none
deriving DecidableEq, Repr

/-- The slice of `ValidatorConfig` a check may consult through the context
(`ctx.config?.e2e`).  The full configuration also carries the stage list, but
including it verbatim would make `PluginContext` recursive through `Plugin`
(a TS object cycle); the engine itself never reads it back out of the
context. -/
structure ConfigView where
  e2e : Option E2EMode := none
deriving DecidableEq, Repr

/-- `PluginContext` — the immutable record handed to every check. -/
structure PluginContext where
  cwd : String
  ci : Bool
  scope : Scope
  changedFiles : List String
  stagedFiles : List String
  targetFiles : Option (List String) := none
  env : List (String × String) := []
  config : ConfigView := {}

/-- Outcome of awaiting a check's promise: it resolves with a result or
rejects with an error (message plus optional stack). -/
inductive TaskOutcome
  | ok (r : PluginResult)
  | threw (msg : String) (stack : Option String)

/-- `Plugin` — a check: display name plus `run(ctx)`. -/
structure Plugin where
  name : String
  run : PluginContext → TaskOutcome

/-- `TaskSpec = { plugin: Plugin }`. -/
structure TaskSpec where
  plugin : Plugin

/-- `StageSpec`; the optional booleans `parallel?`/`failOnWarn?` default to
`false` (absent ≡ falsy in the scheduler's tests). -/
structure StageSpec where
  name : String
  parallel : Bool := false
  tasks : List TaskSpec
  failOnWarn : Bool := false

/-- A message carrying only a level and a text, as built by the scheduler's
crash handler (`{ level, message }`). -/
def msgOf (lvl : Level) (text : String) : Message :=
  { level := lvl, message := text }

/-! ## Stage scheduler (`src/src/core/orchestrator.ts`) -/

/-- `runTask` (orchestrator.ts:109-135): await the plugin, stamp the duration;
a thrown error is converted into a fail result with an error-level message
carrying the error text, an info-level message with the stack when present,
and the stack mirrored into `stderr`. -/
def runTask (p : Plugin) (ctx : PluginContext) (dur : Nat) : PluginResult :=
  match p.run ctx with
  | .ok r => { r with durationMs := some dur }
  | .threw msg stack =>
      { name := p.name
        status := .fail
        messages := some
          (msgOf .error msg ::
            (match stack with
             | some st => [msgOf .info st]
             | none => []))
        stderr := stack
        durationMs := some dur }

/-- First index at which `n` occurs in `names` (the content of the
first-occurrence `order` map built by `sortResultsByTaskOrder`,
orchestrator.ts:87-92). -/
def firstIndexOf (names : List String) (n : String) : Option Nat :=
  match names with
  | [] => none
  | m :: rest => if m = n then some 0 else (firstIndexOf rest n).map (· + 1)

/-- The declared plugin names of a stage's tasks, in order. -/
def taskNames (tasks : List TaskSpec) : List String :=
  tasks.map (fun t => t.plugin.name)

/-- The comparator key of `sortResultsByTaskOrder` (orchestrator.ts:93-106):
the first-occurrence index of the result's `name` among the stage's task
names.  Results whose name is not a task name compare equal to each other and
after every known name, which the comparator's `-1/1/0` branches express;
mapping `none` to `tasks.length` (strictly above every real index) realises
exactly that order. -/
def sortKey (tasks : List TaskSpec) (r : PluginResult) : Nat :=
  (firstIndexOf (taskNames tasks) r.name).getD tasks.length

/-- `sortResultsByTaskOrder` (orchestrator.ts:86-107): stable sort of the
completion-ordered results by the first-occurrence index of their name.
`Array.prototype.sort` is stable; `List.insertionSort` is a stable sort for
the same preorder. -/
def sortResultsByTaskOrder (results : List PluginResult) (tasks : List TaskSpec) :
    List PluginResult :=
  List.insertionSort (fun a b => sortKey tasks a ≤ sortKey tasks b) results

/-- `runSequential` (orchestrator.ts:174-180): run the wrapped tasks one after
another.  The wrapper `.catch` of orchestrator.ts:46-64 is unreachable
because `runTask` already catches every rejection, so the wrapped task is
`runTask` itself. -/
def runSequential (tasks : List TaskSpec) (ctx : PluginContext) (dur : Nat) :
    List PluginResult :=
  match tasks with
  | [] => []
  | t :: ts => runTask t.plugin ctx dur :: runSequential ts ctx dur

/-- `runParallel` (orchestrator.ts:137-172): the bounded pool deposits results
in completion order.  `π` lists the task indices in the order in which they
complete; any interleaving the pool can produce is some such `π`. -/
def runParallelCompletion (tasks : List TaskSpec) (π : List Nat)
    (ctx : PluginContext) (dur : Nat) : List PluginResult :=
  π.filterMap (fun i => (tasks.get? i).map (fun t => runTask t.plugin ctx dur))

/-- One stage's contribution to the result list (orchestrator.ts:66-75):
parallel stages are re-sorted to declaration order, sequential ones are
already in declaration order; every result is stamped with the stage name. -/
def stageOutput (ctx : PluginContext) (dur : Nat) (p : StageSpec × List Nat) :
    List PluginResult :=
  let raw :=
    if p.1.parallel then
      sortResultsByTaskOrder (runParallelCompletion p.1.tasks p.2 ctx dur) p.1.tasks
    else
      runSequential p.1.tasks ctx dur
  raw.map (fun r => { r with stage := some p.1.name })

/-- The stage-termination policy test (orchestrator.ts:77-79): some result
failed, or the stage fails on warnings and some result warned. -/
def stageFails (s : StageSpec) (out : List PluginResult) : Bool :=
  out.any (fun r => decide (r.status = Status.fail)) ||
    (s.failOnWarn && out.any (fun r => decide (r.status = Status.warn)))

/-- The stage loop of `runValidation` (orchestrator.ts:43-84): stages run in
order; a stage failing its policy aborts the pipeline with `ok = false`,
keeping the results accumulated so far (including the aborting stage's). -/
def runStages (ctx : PluginContext) (dur : Nat) :
    List (StageSpec × List Nat) → Bool × List PluginResult
  | [] => (true, [])
  | p :: rest =>
      let out := stageOutput ctx dur p
      if stageFails p.1 out then
        (false, out)
      else
        let next := runStages ctx dur rest
        (next.1, out ++ next.2)

/-! ## Git scope resolver (`src/unnamed/part_005`) -/

/-- An invocation of the `git` helper: the result of spawning `git args` in
the working directory — exit code (`null` becomes 1 in the source) and
captured stdout. -/
def GitOracle : Type := List String → Int × String

/-- Trim ASCII whitespace from both ends (`String.prototype.trim` on the
characters the parser cares about). -/
def trimChars (l : List Char) : List Char :=
  ((l.dropWhile Char.isWhitespace).reverse.dropWhile Char.isWhitespace).reverse

/-- `s.trim()`. -/
def jsTrim (s : String) : String :=
  String.mk (trimChars s.data)

/-- Split at newlines (`.split(/\r?\n/)`); the `\r` of a CRLF is removed by
the subsequent `trim` of every fragment, so splitting at `'\n'` alone is
equivalent after the `map(trim)`. -/
def splitNewlines : List Char → List (List Char)
  | [] => [[]]
  | c :: rest =>
      if c = '\n' then [] :: splitNewlines rest
      else
        match splitNewlines rest with
        | [] => [[c]]
        | line :: more => (c :: line) :: more

/-- `stdout.split(/\r?\n/).map(s => s.trim()).filter(Boolean)`. -/
def parseFileList (s : String) : List String :=
  (((splitNewlines s.data).map (fun l => String.mk (trimChars l))).filter
    (fun x => decide (x ≠ "")))

/-- Argument vector of the staged-files query (part_005:23-26). -/
def stagedDiffArgs : List String :=
  ["diff", "--name-only", "--cached", "--diff-filter=ACMRTUXB"]

/-- Argument vector of the upstream-resolution query (part_005:37-39). -/
def revParseUpstreamArgs : List String :=
  ["rev-parse", "--abbrev-ref", "--symbolic-full-name", "@{u}"]

/-- Argument vector of the merge-base query (part_005:50). -/
def mergeBaseArgs : List String :=
  ["merge-base", "HEAD", "@{u}"]

/-- `getStagedFiles` (part_005:22-34), with the list of git invocations it
performs as a trace. -/
def getStagedFiles (g : GitOracle) : List String × List (List String) :=
  let res := g stagedDiffArgs
  (if res.1 ≠ 0 then [] else parseFileList res.2, [stagedDiffArgs])

/-- `getChangedFilesAgainstUpstream` (part_005:36-60), with its git-call
trace.  A failed (or empty) upstream resolution falls back to a diff against
`HEAD~1`; the merge-base exit code is not inspected, only its (trimmed)
stdout, with `'HEAD~1'` substituted when that is empty (`||` on a falsy
string). -/
def getChangedFilesAgainstUpstream (g : GitOracle) :
    List String × List (List String) :=
  let upstream := g revParseUpstreamArgs
  if upstream.1 ≠ 0 ∨ jsTrim upstream.2 = "" then
    let diff := g ["diff", "--name-only", "HEAD~1"]
    (if diff.1 ≠ 0 then [] else parseFileList diff.2,
      [revParseUpstreamArgs, ["diff", "--name-only", "HEAD~1"]])
  else
    let mb := g mergeBaseArgs
    let base := if jsTrim mb.2 = "" then "HEAD~1" else jsTrim mb.2
    let diff := g ["diff", "--name-only", base ++ "..HEAD"]
    (if diff.1 ≠ 0 then [] else parseFileList diff.2,
      [revParseUpstreamArgs, mergeBaseArgs, ["diff", "--name-only", base ++ "..HEAD"]])

/-! ## Context construction and `runValidation` (orchestrator.ts:12-84) -/

/-- `RunOptions`. -/
structure RunOptions where
  scope : Scope
  ci : Bool
  maxWorkers : Nat
  report : String
  e2e : E2EMode
  quiet : Option Bool := none
  verbose : Option Bool := none
  paths : Option (List String) := none
  cwd : Option String := none
deriving DecidableEq, Repr

/-- The file-selection part of `runValidation` (orchestrator.ts:18-35):
staged files are always queried; the changed list reuses the staged list
when `scope === 'staged'` and otherwise queries the upstream diff.
`resolvePathsToFiles` is a filesystem walk outside the engine core; it is
abstracted by the oracle `resolve`.  The returned trace lists every git
invocation made while building the context. -/
def buildContext (g : GitOracle) (resolve : List String → List String)
    (env : List (String × String)) (options : RunOptions) (cfg : ConfigView) :
    PluginContext × List (List String) :=
  let staged := getStagedFiles g
  let changed :=
    if options.scope = Scope.staged then (staged.1, [])
    else getChangedFilesAgainstUpstream g
  ({ cwd := options.cwd.getD ""
     ci := options.ci
     scope := options.scope
     changedFiles := changed.1
     stagedFiles := staged.1
     targetFiles := options.paths.map resolve
     env := env
     config := cfg },
    staged.2 ++ changed.2)

/-- `ValidatorConfig`: the stage list plus the defaults a check can see. -/
structure ValidatorConfig where
  stages : List StageSpec
  e2e : Option E2EMode := none

/-- The context `runValidation` hands to every check. -/
def contextOf (g : GitOracle) (resolve : List String → List String)
    (env : List (String × String)) (config : ValidatorConfig)
    (options : RunOptions) : PluginContext :=
  (buildContext g resolve env options { e2e := config.e2e }).1

/-- Pair every stage with its completion order: `sched i` is the order in
which stage `i`'s worker pool deposits results (ignored by sequential
stages). -/
def scheduleStages (stages : List StageSpec) (sched : Nat → List Nat) :
    List (StageSpec × List Nat) :=
  stages.enum.map (fun p => (p.2, sched p.1))

/-- `runValidation` (orchestrator.ts:12-84): build the context, then run the
stage loop under the completion orders `sched`. -/
def runValidation (g : GitOracle) (resolve : List String → List String)
    (env : List (String × String)) (config : ValidatorConfig)
    (options : RunOptions) (sched : Nat → List Nat) (dur : Nat) :
    Bool × List PluginResult :=
  runStages (contextOf g resolve env config options) dur
    (scheduleStages config.stages sched)

/-! ## Tool prober (`src/unnamed/part_008`, `detectTool`) -/

/-- How the probe process ended: a `close` event with an exit code (a killed
or timed-out process closes with a `null` code, modelled by `timedOut`), or
an `error` event from a failed spawn. -/
inductive ProbeOutcome
  | exited (code : Int)
  | spawnFailed
  | timedOut
deriving DecidableEq, Repr

/-- What the probe observed: termination plus captured stdout/stderr. -/
structure ProbeResult where
  outcome : ProbeOutcome
  stdout : String := ""
  stderr : String := ""
deriving DecidableEq, Repr

/-- `ToolInfo = { available, version?, path? }`. -/
structure ToolInfo where
  available : Bool
  version : Option String := none
  path : Option String := none
deriving DecidableEq, Repr

/-- Greedy match of `\d+\.\d+\.\d+` at the start of `l` (the regex engine's
maximal munch; a digit is never `'.'`, so no backtracking can succeed where
the greedy attempt fails).  Returns the matched text. -/
def matchTriple (l : List Char) : Option (List Char) :=
  match l.takeWhile Char.isDigit, l.dropWhile Char.isDigit with
  | [], _ => none
  | d1, '.' :: r2 =>
      match r2.takeWhile Char.isDigit, r2.dropWhile Char.isDigit with
      | [], _ => none
      | d2, '.' :: r4 =>
          match r4.takeWhile Char.isDigit with
          | [] => none
          | d3 => some (d1 ++ '.' :: d2 ++ '.' :: d3)
      | _, _ => none
  | _, _ => none

/-- The value of capture group 1 of the leftmost match of
`/v?(\d+\.\d+\.\d+)/` — what `detectTool` stores as the version.  At an index
holding `'v'` the optional `v` is consumed and the triple is required right
after it; `'v'` is not a digit, so the two alternatives at one index are
exclusive. -/
def findVersion : List Char → Option (List Char)
  | [] => none
  | c :: rest =>
      match matchTriple (c :: rest) with
      | some g => some g
      | none =>
          if c = 'v' then
            match matchTriple rest with
            | some g => some g
            | none => findVersion rest
          else findVersion rest

/-- Modelled from the spec: “the first occurrence of the pattern
`v?\d+\.\d+\.\d+`” — the full text of the leftmost match, leading `v`
included, for comparison with what the code actually reports. -/
def specFirstMatch : List Char → Option (List Char)
  | [] => none
  | c :: rest =>
      if c = 'v' then
        match matchTriple rest with
        | some g => some ('v' :: g)
        | none => specFirstMatch rest
      else
        match matchTriple (c :: rest) with
        | some g => some g
        | none => specFirstMatch rest

/-- `findVersion` on a string, producing a string. -/
def findVersionS (s : String) : Option String :=
  (findVersion s.data).map String.mk

/-- `detectTool` (part_008:9-61): only a `close` with exit code 0 yields
`available = true`; the version is parsed from trimmed stdout, consulting
trimmed stderr only when stdout had no match and stderr is nonempty.  A
non-zero exit, a spawn error, or a timeout resolves `{ available: false }`
(the promise always resolves — the model is a total function). -/
def detectTool (command : String) (p : ProbeResult) : ToolInfo :=
  match p.outcome with
  | .exited 0 =>
      let stdoutTrimmed := jsTrim p.stdout
      let stderrTrimmed := jsTrim p.stderr
      let version :=
        match findVersionS stdoutTrimmed with
        | some v => some v
        | none => if stderrTrimmed ≠ "" then findVersionS stderrTrimmed else none
      { available := true, version := version, path := some command }
  | _ => { available := false }

/-! ## The gitleaks check (orchestrator.ts:202-233 of the concatenated file) -/

/-- `gitleaksPlugin.run`, as a function of the cached tool info and the
outcome `(code, stdout, stderr)` of the spawned scan (`dur` models the
measured duration).  When the tool is available the status is `pass` iff the
scan exited 0 — and the result carries no `messages` at all. -/
def gitleaksRun (toolInfo : ToolInfo) (code : Int) (stdout stderr : String)
    (dur : Nat) : PluginResult :=
  if !toolInfo.available then
    { name := "Security (gitleaks)"
      status := .skipped
      durationMs := some dur
      stdout := some
        "gitleaks not found.\nInstall it with: pnpm add -D gitleaks\n\nThis check is skipped for now." }
  else
    { name := "Security (gitleaks)"
      status := if code = 0 then .pass else .fail
      stdout := some stdout
      stderr := some stderr }

/-! ## Finding aggregator (`src/unnamed/part_006`, `aggregateByRule`) -/

/-- The aggregator's `Finding`: `file` is a plain string (possibly empty —
the code tests its truthiness), `line` optional, `level` a severity. -/
structure Finding where
  file : String
  line : Option Nat := none
  level : Level
  code : String
  message : String := ""
  suggestion : Option String := none
deriving DecidableEq, Repr

/-- Per-`file:line` occurrence data inside a group. -/
structure FileViolation where
  count : Nat
  lines : List Nat
deriving DecidableEq, Repr

/-- `RuleViolation`: one aggregated group. -/
structure RuleViolation where
  rule : String
  severity : Level
  count : Nat
  fileViolations : List (String × FileViolation)
  suggestion : Option String := none
deriving DecidableEq, Repr

/-- `SEVERITY_ORDER`: `error ↦ 0, warn ↦ 1, info ↦ 2` (smaller = more
severe). -/
def severityOrder : Level → Nat
  | .error => 0
  | .warn => 1
  | .info => 2

/-- JS truthiness of an optional string: present and nonempty. -/
def truthyStr : Option String → Bool
  | some s => decide (s ≠ "")
  | none => false

/-- JS truthiness of an optional number: present and nonzero (`0` is
falsy). -/
def truthyNat : Option Nat → Bool
  | some n => decide (n ≠ 0)
  | none => false

/-- `Map.get` on an insertion-ordered association list. -/
def lookupA {β : Type} : List (String × β) → String → Option β
  | [], _ => none
  | e :: rest, k => if e.1 = k then some e.2 else lookupA rest k

/-- `Map.set` on an insertion-ordered association list: update in place when
the key exists, append otherwise. -/
def setA {β : Type} : List (String × β) → String → β → List (String × β)
  | [], k, v => [(k, v)]
  | e :: rest, k, v => if e.1 = k then (k, v) :: rest else e :: setA rest k v

/-- The group record while the map is being built (same shape as
`RuleViolation`, `fileViolations` still unsorted). -/
abbrev Group := RuleViolation

/-- The fresh group created for the first finding with a new code
(part_006:43-60): severity starts at that finding's level, count at 0, the
suggestion is taken when truthy. -/
def newGroup (f : Finding) : Group :=
  { rule := f.code
    severity := f.level
    count := 0
    fileViolations := []
    suggestion := if truthyStr f.suggestion then f.suggestion else none }

/-- The occurrence key of one finding (part_006:74): `file:line` when the
line is truthy (present and non-zero), the file alone otherwise. -/
def fileKeyOf (f : Finding) : String :=
  match f.line with
  | some n => if n ≠ 0 then f.file ++ ":" ++ toString n else f.file
  | none => f.file

/-- The per-finding update of a group's `fileViolations` (part_006:73-84):
keyed by `fileKeyOf`; counts per key; truthy lines are appended to the key's
line list. -/
def updateFileViolations (fv : List (String × FileViolation)) (f : Finding) :
    List (String × FileViolation) :=
  let current := (lookupA fv (fileKeyOf f)).getD { count := 0, lines := [] }
  setA fv (fileKeyOf f)
    { count := current.count + 1
      lines :=
        match f.line with
        | some n => if n ≠ 0 then current.lines ++ [n] else current.lines
        | none => current.lines }

/-- The in-place mutation of an existing group for one finding
(part_006:62-88): keep the more severe level, bump the count, track the
`file:line` occurrence when the file is truthy, adopt the first truthy
suggestion. -/
def updateGroup (g : Group) (f : Finding) : Group :=
  { g with
    severity := if severityOrder f.level < severityOrder g.severity then f.level else g.severity
    count := g.count + 1
    fileViolations := if f.file ≠ "" then updateFileViolations g.fileViolations f else g.fileViolations
    suggestion :=
      if !truthyStr g.suggestion && truthyStr f.suggestion then f.suggestion else g.suggestion }

/-- Processing of one finding against the groups map (the body of the loop,
part_006:41-89). -/
def addFinding (m : List (String × Group)) (f : Finding) : List (String × Group) :=
  let m1 :=
    match lookupA m f.code with
    | none => setA m f.code (newGroup f)
    | some _ => m
  match lookupA m1 f.code with
  | none => m1
  | some g => setA m1 f.code (updateGroup g f)

/-- The groups map after the whole finding list (insertion order is first
occurrence of each code). -/
def buildGroups (findings : List Finding) : List (String × Group) :=
  findings.foldl addFinding []

/-- Lexicographic (code-point) order on character lists, modelling the string
comparator `a.localeCompare(b)` used on file keys and rule codes. -/
def lexLe : List Char → List Char → Bool
  | [], _ => true
  | _ :: _, [] => false
  | a :: as, b :: bs => if a = b then lexLe as bs else decide (a < b)

/-- The file-entry comparator: `(a, b) => a[0].localeCompare(b[0])`. -/
def fvLe (a b : String × FileViolation) : Prop :=
  lexLe a.1.data b.1.data = true

instance : DecidableRel fvLe := fun a b => by
  unfold fvLe; infer_instance

/-- The group comparator (part_006:107-113): severity rank first, rule code
second. -/
def groupLe (a b : RuleViolation) : Prop :=
  severityOrder a.severity < severityOrder b.severity ∨
    (severityOrder a.severity = severityOrder b.severity ∧ lexLe a.rule.data b.rule.data = true)

instance : DecidableRel groupLe := fun a b => by
  unfold groupLe; infer_instance

/-- `aggregateByRule` (part_006:29-116): fold the findings into the groups
map, sort each group's `fileViolations` by key, keep the suggestion only when
truthy, and sort the groups by severity then rule (`Array.prototype.sort`
modelled by the stable `insertionSort`; both comparators are total orders on
the distinct map keys, so stability is irrelevant here). -/
def aggregateByRule (findings : List Finding) : List RuleViolation :=
  (((buildGroups findings).map (fun e =>
      { rule := e.2.rule
        severity := e.2.severity
        count := e.2.count
        fileViolations := List.insertionSort fvLe e.2.fileViolations
        suggestion := if truthyStr e.2.suggestion then e.2.suggestion else none })) :
      List RuleViolation).insertionSort groupLe

/-- Modelled from the spec: “the files within each group are sorted
lexicographically with per-file occurrence counts” — occurrences counted per
*file*, for comparison with the code's per-`file:line` keys. -/
def specPerFileCounts (findings : List Finding) (rule : String) : List (String × Nat) :=
  let files := ((findings.filter (fun f => decide (f.code = rule) && decide (f.file ≠ ""))).map
    (fun f => f.file)).dedup
  (List.insertionSort (fun a b => lexLe a.data b.data = true) files).map
    (fun x => (x, ((findings.filter (fun f => decide (f.code = rule))).filter
      (fun f => decide (f.file = x))).length))

/-! ## Driver (`src/src/cli/cli.ts`: `parseArgs`, `buildOptions`, `main`) -/

/-- `CLIOptions`: every flag is optional; unset stays `none`. -/
structure CLIOptions where
  scope : Option Scope := none
  e2e : Option E2EMode := none
  report : Option String := none
  maxWorkers : Option Nat := none
  quiet : Option Bool := none
  verbose : Option Bool := none
  help : Option Bool := none
  version : Option Bool := none
  force : Option Bool := none
  preset : Option String := none
  paths : Option String := none
  cwd : Option String := none
deriving DecidableEq, Repr

/-- Split a character list at every `'='` (`String.prototype.split('=')`). -/
def splitEq : List Char → List (List Char)
  | [] => [[]]
  | c :: rest =>
      if c = '=' then [] :: splitEq rest
      else
        match splitEq rest with
        | [] => [[c]]
        | part :: more => (c :: part) :: more

/-- The `[k, v]` destructuring of one argument (cli.ts:38): the text before
the first `'='` and the text between the first and second `'='`; an argument
without `'='` yields `(a, "true")`. -/
def keyValOf (a : String) : String × String :=
  if '=' ∈ a.data then
    match splitEq a.data with
    | k :: v :: _ => (String.mk k, String.mk v)
    | _ => (a, "true")
  else (a, "true")

/-- `Number(v)` restricted to the values the engine meaningfully uses: a
decimal natural; anything else (`NaN` included) is `none`. -/
def jsToNat (s : String) : Option Nat :=
  if s.data ≠ [] ∧ s.data.all Char.isDigit then
    some (s.data.foldl (fun acc c => acc * 10 + (c.toNat - '0'.toNat)) 0)
  else none

/-- `a.startsWith('-')`. -/
def startsWithDash (a : String) : Bool :=
  match a.data with
  | '-' :: _ => true
  | _ => false

/-- The per-argument update of `parseArgs`'s loop body (cli.ts:37-72).  An
enum-valued flag whose value is not in its admissible set is silently
ignored — the option field simply stays unset. -/
def parseOneArg (opts : CLIOptions) (a : String) : CLIOptions :=
  let kv := keyValOf a
  let k := kv.1
  let v := kv.2
  if k = "--scope" then
    if v = "staged" then { opts with scope := some .staged }
    else if v = "changed" then { opts with scope := some .changed }
    else if v = "full" then { opts with scope := some .full }
    else opts
  else if k = "--e2e" then
    if v = "auto" then { opts with e2e := some .auto }
    else if v = "always" then { opts with e2e := some .always }
    else if v = "off" then { opts with e2e := some .off }
    else opts
  else if k = "--report" then
    if v = "summary" ∨ v = "json" ∨ v = "junit" then { opts with report := some v }
    else opts
  else if k = "--max-workers" then { opts with maxWorkers := jsToNat v }
  else if k = "--quiet" then { opts with quiet := some (v ≠ "false") }
  else if k = "--force" then { opts with force := some (v ≠ "false") }
  else if k = "--verbose" then { opts with verbose := some (v ≠ "false") }
  else if k = "--preset" then
    if v = "nextjs" ∨ v = "library" ∨ v = "monorepo" then { opts with preset := some v }
    else opts
  else if k = "--paths" then { opts with paths := some v }
  else if k = "--cwd" then { opts with cwd := some v }
  else if k = "--help" ∨ k = "-h" then { opts with help := some true }
  else if k = "--version" ∨ k = "-v" then { opts with version := some true }
  else opts

/-- `parseArgs` (cli.ts:33-78): fold the flags over `argv.slice(2)`, then take
the first non-dash argument as the command (default `full`). -/
def parseArgs (argv : List String) : String × CLIOptions :=
  let args := argv.drop 2
  let opts := args.foldl parseOneArg {}
  let first := ((args.find? (fun a => !startsWithDash a)).getD "full")
  (first, opts)

/-- `buildOptions` (cli.ts:80-98): fill the run options from the CLI options
with the documented defaults; an absent reporter falls back to `"summary"`.
`cpus` stands for `os.cpus().length`; `ciEnv` for the truthiness of the `CI`
environment variable. -/
def buildOptions (mode : String) (opts : CLIOptions) (cpus : Nat) (ciEnv : Bool) :
    RunOptions :=
  { scope := opts.scope.getD (if mode = "fast" then .staged else .full)
    e2e := opts.e2e.getD .off
    ci := mode = "ci" ∨ ciEnv
    report := opts.report.getD "summary"
    maxWorkers := Nat.max 1 (opts.maxWorkers.getD (Nat.min 4 (Nat.max 2 (cpus - 1))))
    quiet := some (opts.quiet.getD false)
    verbose := some (opts.verbose.getD false) }

/-- What `main` (cli.ts:125-175) decides to do after parsing, before any
stage runs. -/
inductive MainAction
  | showHelp
  | showVersion
  | runInit
  | runPipeline (mode : String) (options : RunOptions)
deriving DecidableEq, Repr

/-- The dispatch of `main`: help and version short-circuit, `init` scaffolds,
and every other command — `fast`, `ci`, and anything else (mapped to `full`)
— proceeds to run the pipeline with the built options.  There is no
error/exit branch for an unrecognized flag value. -/
def mainAction (argv : List String) (cpus : Nat) (ciEnv : Bool) : MainAction :=
  let parsed := parseArgs argv
  let cmd := parsed.1
  let opts := parsed.2
  if opts.help.getD false then .showHelp
  else if opts.version.getD false then .showVersion
  else if cmd = "init" then .runInit
  else
    let mode := if cmd = "fast" then "fast" else if cmd = "ci" then "ci" else "full"
    .runPipeline mode (buildOptions mode opts cpus ciEnv)

/-! ## Spec-side definitions used to compare code behaviour with the
specification's wording, plus concrete fixtures for witnesses and
counterexamples. -/

/-- Modelled from the spec: “`status == fail` iff any finding has
`severity == error`; otherwise `status == warn` iff any finding has
`severity == warn`” — the status/finding invariant claimed for every result
in the returned list. -/
def statusMatchesFindings (r : PluginResult) : Prop :=
  (r.status = Status.fail ↔ ∃ m ∈ r.messages.getD [], m.level = Level.error) ∧
  (r.status ≠ Status.fail →
    (r.status = Status.warn ↔ ∃ m ∈ r.messages.getD [], m.level = Level.warn))

instance (r : PluginResult) : Decidable (statusMatchesFindings r) := by
  unfold statusMatchesFindings; infer_instance

/-- Drop the leading `'v'` of a matched occurrence, if present — the step
from the full regex match to its capture group 1. -/
def stripV (m : List Char) : List Char :=
  match m with
  | c :: rest => if c = 'v' then rest else c :: rest
  | [] => []

/-- The version the prober reports on a successful probe, phrased through the
spec's “first occurrence of the pattern” (`specFirstMatch`) with the leading
`v` stripped: stdout first, stderr only when stdout has no occurrence and
stderr is nonempty. -/
def specVersionOf (stdoutTrimmed stderrTrimmed : String) : Option String :=
  match specFirstMatch stdoutTrimmed.data with
  | some m => some (String.mk (stripV m))
  | none =>
      if stderrTrimmed ≠ "" then
        (specFirstMatch stderrTrimmed.data).map (fun m => String.mk (stripV m))
      else none

/-- A git oracle for a tree with no upstream: the upstream resolution exits 1,
the `HEAD~1` fallback diff succeeds and names one file, everything else
succeeds with empty output. -/
def gNoUpstream : GitOracle := fun args =>
  if args = revParseUpstreamArgs then (1, "")
  else if args = ["diff", "--name-only", "HEAD~1"] then (0, "a.ts\n")
  else (0, "")

/-- A git oracle on which every command fails (a working directory outside
any repository). -/
def gAllFail : GitOracle := fun _ => (1, "")

/-- A git oracle on which every command succeeds with empty output. -/
def gQuiet : GitOracle := fun _ => (0, "")

/-- A minimal concrete context for concrete evaluations. -/
def ctxFix : PluginContext :=
  { cwd := "/repo", ci := false, scope := Scope.full
    changedFiles := [], stagedFiles := [] }

/-- A plugin that always resolves with the given result. -/
def constPlugin (nm : String) (r : PluginResult) : Plugin :=
  { name := nm, run := fun _ => .ok r }

/-- Two same-named parallel tasks whose results are distinguishable by their
captured stdout. -/
def tasksAA : List TaskSpec :=
  [{ plugin := constPlugin "A" { name := "A", status := .pass, stdout := some "first" } },
   { plugin := constPlugin "A" { name := "A", status := .pass, stdout := some "second" } }]

/-- Witness pipeline: stage 1 passes, stage 2 fails, stage 3 would pass but
must never run. -/
def stageP : StageSpec :=
  { name := "one", tasks := [{ plugin := constPlugin "P" { name := "P", status := .pass } }] }

/-- The failing second stage of the witness pipeline. -/
def stageF : StageSpec :=
  { name := "two", tasks := [{ plugin := constPlugin "F" { name := "F", status := .fail } }] }

/-- The unreachable third stage of the witness pipeline. -/
def stageQ : StageSpec :=
  { name := "three", tasks := [{ plugin := constPlugin "Q" { name := "Q", status := .pass } }] }

/-- The witness pipeline configuration. -/
def cfgW : ValidatorConfig := { stages := [stageP, stageF, stageQ] }

/-- Witness run options. -/
def optW : RunOptions :=
  { scope := Scope.full, ci := false, maxWorkers := 2, report := "summary", e2e := .off }

/-- The facts a group's `fileViolations` map records about the code `k` after
processing the findings `p`: distinct keys, a key exactly for the occurrence
keys seen so far (of findings with code `k` and a truthy file), and per-key
counts. -/
def fvProps (p : List Finding) (k : String) (fv : List (String × FileViolation)) : Prop :=
  (fv.map Prod.fst).Nodup
  ∧ (∀ key, lookupA fv key = none →
      ∀ f ∈ p, f.code = k → f.file ≠ "" → fileKeyOf f ≠ key)
  ∧ (∀ key d, lookupA fv key = some d →
      d.count = (p.filter (fun f =>
        decide (f.code = k) && decide (f.file ≠ "") && decide (fileKeyOf f = key))).length)

/-- The facts the groups map records about the code `k` after processing the
findings `p`: the group's rule is its key, its severity is attained by some
finding with that code and bounds (is at most as large in `severityOrder` as)
every such finding's level, its count is the number of such findings, and its
occurrence map satisfies `fvProps`. -/
def groupProps (p : List Finding) (k : String) (g : RuleViolation) : Prop :=
  g.rule = k
  ∧ (∃ f ∈ p, f.code = k ∧ f.level = g.severity)
  ∧ (∀ f ∈ p, f.code = k → severityOrder g.severity ≤ severityOrder f.level)
  ∧ g.count = (p.filter (fun f => decide (f.code = k))).length
  ∧ fvProps p k g.fileViolations

/-- Invariant of the aggregation fold: the groups map has pairwise-distinct
keys, has a key exactly for the codes seen so far, and each group records
`groupProps` for its key. -/
def GroupsInv (p : List Finding) (m : List (String × RuleViolation)) : Prop :=
  (m.map Prod.fst).Nodup
  ∧ (∀ k, lookupA m k = none → ∀ f ∈ p, f.code ≠ k)
  ∧ (∀ k g, lookupA m k = some g → groupProps p k g)

/-- A concrete finding list with two rules for the aggregator witness. -/
def fsW : List Finding :=
  [{ file := "b.ts", line := some 2, level := .warn, code := "r2", message := "m" },
   { file := "a.ts", line := some 1, level := .error, code := "r1", message := "m" },
   { file := "a.ts", line := some 3, level := .info, code := "r2", message := "m" }]

/-- A plugin whose promise always rejects. -/
def pCrash : Plugin :=
  { name := "C", run := fun _ => .threw "boom" none }

/-- A one-task stage built on the crashing plugin. -/
def stageC : StageSpec :=
  { name := "crashy", tasks := [{ plugin := pCrash }] }

/-! # Theorems -/

/-! ## Generic helper lemmas -/

theorem runSequential_length (ts : List TaskSpec) (ctx : PluginContext) (dur : Nat) :
    (runSequential ts ctx dur).length = ts.length := by
  induction ts with
  | nil => rfl
  | cons t ts ih => simp [runSequential, ih]

theorem filterMap_length_of_isSome {α β : Type} (f : α → Option β) (l : List α)
    (h : ∀ a ∈ l, (f a).isSome) : (l.filterMap f).length = l.length := by
  induction l with
  | nil => rfl
  | cons a l ih =>
      rw [List.filterMap_cons]
      rcases hfa : f a with _ | b
      · exact absurd (h a (List.mem_cons_self a l)) (by simp [hfa])
      · simp only [List.length_cons]
        rw [ih (fun x hx => h x (List.mem_cons_of_mem a hx))]

theorem stageOutput_length (ctx : PluginContext) (dur : Nat) (s : StageSpec)
    (π : List Nat) (hπ : π.Perm (List.range s.tasks.length)) :
    (stageOutput ctx dur (s, π)).length = s.tasks.length := by
  unfold stageOutput
  rw [List.length_map]
  dsimp only
  split
  · have h1 : (sortResultsByTaskOrder (runParallelCompletion s.tasks π ctx dur) s.tasks).length
        = (runParallelCompletion s.tasks π ctx dur).length :=
      (List.perm_insertionSort _ _).length_eq
    rw [h1]
    unfold runParallelCompletion
    rw [filterMap_length_of_isSome]
    · rw [hπ.length_eq, List.length_range]
    · intro i hi
      have : i < s.tasks.length := by
        have := hπ.subset hi
        simpa [List.mem_range] using this
      simp [List.getElem?_eq_getElem this]
  · exact runSequential_length s.tasks ctx dur

/-! ## C10 — `scope = staged` reuses the staged list and skips the upstream
query -/

/-- C10: with `scope = 'staged'` the context's changed-files list is exactly
its staged-files list and the only git query made while building the context
is the staged diff (in particular the upstream resolution is never invoked);
with scope `changed` or `full` the upstream query is performed. -/
theorem staged_scope_reuses_staged (g : GitOracle) (resolve : List String → List String)
    (env : List (String × String)) (options : RunOptions) (cfg : ConfigView) :
    (options.scope = Scope.staged →
      (buildContext g resolve env options cfg).1.changedFiles
          = (buildContext g resolve env options cfg).1.stagedFiles
      ∧ (buildContext g resolve env options cfg).2 = [stagedDiffArgs]
      ∧ revParseUpstreamArgs ∉ (buildContext g resolve env options cfg).2)
    ∧ ((options.scope = Scope.changed ∨ options.scope = Scope.full) →
      revParseUpstreamArgs ∈ (buildContext g resolve env options cfg).2) := by
  constructor
  · intro h
    refine ⟨?_, ?_, ?_⟩
    · simp [buildContext, getStagedFiles, h]
    · simp [buildContext, getStagedFiles, h]
    · simp only [buildContext, getStagedFiles, if_pos h]
      decide
  · intro h
    have hne : options.scope ≠ Scope.staged := by
      rcases h with h | h <;> simp [h]
    simp only [buildContext, getStagedFiles, if_neg hne]
    unfold getChangedFilesAgainstUpstream
    by_cases hc : (g revParseUpstreamArgs).1 ≠ 0 ∨ jsTrim (g revParseUpstreamArgs).2 = "" <;>
      simp [hc]

/-- Witness for C10 at a concrete oracle and staged-scope options. -/
theorem staged_scope_reuses_staged_witness :
    (buildContext gQuiet id [] { optW with scope := Scope.staged } {}).1.changedFiles
        = (buildContext gQuiet id [] { optW with scope := Scope.staged } {}).1.stagedFiles
    ∧ (buildContext gQuiet id [] { optW with scope := Scope.staged } {}).2 = [stagedDiffArgs]
    ∧ revParseUpstreamArgs ∈ (buildContext gQuiet id [] optW {}).2 := by
  have h1 := (staged_scope_reuses_staged gQuiet id [] { optW with scope := Scope.staged } {}).1 rfl
  have h2 := (staged_scope_reuses_staged gQuiet id [] optW {}).2 (Or.inr rfl)
  exact ⟨h1.1, h1.2.1, h2⟩

/-! ## C5 — degrading to the empty list on non-zero git exits -/

/-- C5 counterexample: the claim “the two operations return the empty list
whenever the underlying git command exits non-zero” is false as stated: on a
tree with no upstream the upstream-resolution command exits non-zero, yet
`getChangedFilesAgainstUpstream` falls back to a `HEAD~1` diff and returns a
non-empty list. -/
theorem git_nonzero_cex :
    (gNoUpstream revParseUpstreamArgs).1 ≠ 0
    ∧ revParseUpstreamArgs ∈ (getChangedFilesAgainstUpstream gNoUpstream).2
    ∧ (getChangedFilesAgainstUpstream gNoUpstream).1 = ["a.ts"] := by
  decide

/-- C5 as amended: a non-zero exit of the git command that *produces the file
list* yields the empty list — the staged diff for `getStagedFiles`, the
selected diff for `getChangedFilesAgainstUpstream` (a failed upstream
resolution instead selects the `HEAD~1` fallback diff) — and outside any
repository (every git command failing) both operations return the empty
list; both are total functions, so neither raises. -/
theorem git_nonzero_empty (g : GitOracle) :
    ((g stagedDiffArgs).1 ≠ 0 → (getStagedFiles g).1 = [])
    ∧ (((g revParseUpstreamArgs).1 ≠ 0 ∨ jsTrim (g revParseUpstreamArgs).2 = "") →
        (g ["diff", "--name-only", "HEAD~1"]).1 ≠ 0 →
        (getChangedFilesAgainstUpstream g).1 = [])
    ∧ ((g revParseUpstreamArgs).1 = 0 → jsTrim (g revParseUpstreamArgs).2 ≠ "" →
        (g ["diff", "--name-only",
            (if jsTrim (g mergeBaseArgs).2 = "" then "HEAD~1"
             else jsTrim (g mergeBaseArgs).2) ++ "..HEAD"]).1 ≠ 0 →
        (getChangedFilesAgainstUpstream g).1 = [])
    ∧ ((∀ args, (g args).1 ≠ 0) →
        (getStagedFiles g).1 = [] ∧ (getChangedFilesAgainstUpstream g).1 = []) := by
  refine ⟨?_, ?_, ?_, ?_⟩
  · intro h
    simp [getStagedFiles, h]
  · intro hc hd
    unfold getChangedFilesAgainstUpstream
    simp [hc, hd]
  · intro h1 h2 hd
    unfold getChangedFilesAgainstUpstream
    rw [if_neg (by simp [h1, h2])]
    simp [hd]
  · intro hall
    refine ⟨?_, ?_⟩
    · simp [getStagedFiles, hall stagedDiffArgs]
    · unfold getChangedFilesAgainstUpstream
      rw [if_pos (Or.inl (hall revParseUpstreamArgs))]
      simp [hall ["diff", "--name-only", "HEAD~1"]]

/-- Witness for C5 (amended) outside a repository: every command failing
gives empty lists from both operations. -/
theorem git_nonzero_empty_witness :
    (getStagedFiles gAllFail).1 = [] ∧ (getChangedFilesAgainstUpstream gAllFail).1 = [] :=
  (git_nonzero_empty gAllFail).2.2.2 (fun _ => by simp [gAllFail])

/-! ## C2 — a crashing check is contained and the stage continues -/

/-- C2: a rejected check promise is converted by the scheduler into a
fail-status result named after the plugin whose error-level findings are
exactly one message carrying the error text; and a stage always yields one
result per task (a crash never removes the remaining checks), for any
completion order of a parallel stage and for sequential stages alike. -/
theorem runTask_crash_contained (p : Plugin) (ctx : PluginContext) (dur : Nat)
    (msg : String) (stack : Option String) (s : StageSpec) (π : List Nat) :
    (p.run ctx = .threw msg stack →
      (runTask p ctx dur).status = Status.fail
      ∧ (runTask p ctx dur).name = p.name
      ∧ ((runTask p ctx dur).messages.getD []).filter
          (fun m => decide (m.level = Level.error)) = [msgOf .error msg])
    ∧ (π.Perm (List.range s.tasks.length) →
        (stageOutput ctx dur (s, π)).length = s.tasks.length) := by
  constructor
  · intro h
    refine ⟨?_, ?_, ?_⟩ <;> simp only [runTask, h]
    cases stack <;> simp [msgOf]
  · exact stageOutput_length ctx dur s π

/-- Witness for C2 at a concrete crashing plugin and a one-task stage. -/
theorem runTask_crash_contained_witness :
    (runTask pCrash ctxFix 0).status = Status.fail
    ∧ (runTask pCrash ctxFix 0).name = "C"
    ∧ ((runTask pCrash ctxFix 0).messages.getD []).filter
        (fun m => decide (m.level = Level.error)) = [msgOf .error "boom"]
    ∧ (stageOutput ctxFix 0 (stageC, [0])).length = 1 := by
  have h := runTask_crash_contained pCrash ctxFix 0 "boom" none stageC [0]
  have h1 := h.1 rfl
  have h2 := h.2 (by decide)
  exact ⟨h1.1, h1.2.1, h1.2.2, h2⟩

/-! ## C4 — the status/finding invariant -/

/-- C4 counterexample: the gitleaks check, with the tool available and the
scan exiting non-zero, returns a `fail` result with no `messages` at all —
so “`status == fail` iff some finding has `severity == error`” is false for
a result the pipeline returns unchanged. -/
theorem status_findings_cex :
    (gitleaksRun { available := true, version := none, path := some "gitleaks" } 1 "" "" 5).status
        = Status.fail
    ∧ (gitleaksRun { available := true, version := none, path := some "gitleaks" } 1 "" "" 5).messages
        = none
    ∧ ¬ statusMatchesFindings
        (gitleaksRun { available := true, version := none, path := some "gitleaks" } 1 "" "" 5) := by
  decide

/-- C4 as amended: the engine enforces the status/finding invariant only for
the results it synthesizes for crashed checks — those are `fail` and carry an
error-level finding with the error text; a check's own result passes through
the scheduler with status and findings unchanged, and checks (e.g. gitleaks)
may return `fail` with no findings. -/
theorem scheduler_result_invariants (p : Plugin) (ctx : PluginContext) (dur : Nat) :
    (∀ msg stack, p.run ctx = .threw msg stack → statusMatchesFindings (runTask p ctx dur))
    ∧ (∀ r, p.run ctx = .ok r →
        (runTask p ctx dur).status = r.status ∧ (runTask p ctx dur).messages = r.messages) := by
  constructor
  · intro msg stack h
    unfold statusMatchesFindings
    refine ⟨?_, ?_⟩
    · simp only [runTask, h]
      constructor
      · intro _
        exact ⟨msgOf .error msg, by simp, rfl⟩
      · intro _
        trivial
    · intro hne
      exact absurd (by simp [runTask, h]) hne
  · intro r h
    simp [runTask, h]

/-- Witness for C4 (amended) at a crashing plugin and a constant plugin. -/
theorem scheduler_result_invariants_witness :
    statusMatchesFindings (runTask pCrash ctxFix 0)
    ∧ (runTask (constPlugin "G" { name := "G", status := .warn }) ctxFix 0).status = Status.warn := by
  constructor
  · exact (scheduler_result_invariants pCrash ctxFix 0).1 "boom" none rfl
  · exact ((scheduler_result_invariants (constPlugin "G" { name := "G", status := .warn })
      ctxFix 0).2 { name := "G", status := .warn } rfl).1

/-! ## C1 — the stage-termination policy -/

theorem runStages_ok_iff (ctx : PluginContext) (dur : Nat) (l : List (StageSpec × List Nat)) :
    (runStages ctx dur l).1 = true ↔
      ∀ p ∈ l, stageFails p.1 (stageOutput ctx dur p) = false := by
  induction l with
  | nil => simp [runStages]
  | cons p rest ih =>
      by_cases hf : stageFails p.1 (stageOutput ctx dur p) = true
      · simp only [runStages, hf, if_true]
        constructor
        · intro hfalse
          exact absurd hfalse (by simp)
        · intro hall
          exact absurd (hall p (List.mem_cons_self p rest)) (by simp [hf])
      · have hf' : stageFails p.1 (stageOutput ctx dur p) = false := by
          simpa using hf
        simp only [runStages, hf', Bool.false_eq_true, if_false]
        constructor
        · intro hok q hq
          rcases List.mem_cons.mp hq with rfl | hq'
          · exact hf'
          · exact (ih.mp hok) q hq'
        · intro hall
          exact ih.mpr (fun q hq => hall q (List.mem_cons_of_mem p hq))

theorem runStages_all_pass (ctx : PluginContext) (dur : Nat)
    (l : List (StageSpec × List Nat))
    (h : ∀ p ∈ l, stageFails p.1 (stageOutput ctx dur p) = false) :
    (runStages ctx dur l).2 = (l.map (stageOutput ctx dur)).flatten := by
  induction l with
  | nil => simp [runStages]
  | cons p rest ih =>
      have hp := h p (List.mem_cons_self p rest)
      simp only [runStages, hp, Bool.false_eq_true, if_false, List.map_cons, List.flatten_cons]
      rw [ih (fun q hq => h q (List.mem_cons_of_mem p hq))]

theorem runStages_abort (ctx : PluginContext) (dur : Nat) :
    ∀ (pre : List (StageSpec × List Nat)) (bad : StageSpec × List Nat)
      (post : List (StageSpec × List Nat)),
      (∀ p ∈ pre, stageFails p.1 (stageOutput ctx dur p) = false) →
      stageFails bad.1 (stageOutput ctx dur bad) = true →
      runStages ctx dur (pre ++ bad :: post)
        = (false, (pre.map (stageOutput ctx dur)).flatten ++ stageOutput ctx dur bad) := by
  intro pre
  induction pre with
  | nil =>
      intro bad post _ hbad
      simp [runStages, hbad]
  | cons p rest ih =>
      intro bad post hpre hbad
      have hp := hpre p (List.mem_cons_self p rest)
      have hrest := ih bad post (fun q hq => hpre q (List.mem_cons_of_mem p hq)) hbad
      simp only [List.cons_append, runStages, hp, Bool.false_eq_true, if_false,
        List.append_eq, hrest, List.map_cons, List.flatten_cons, List.append_assoc]

/-- C1: `runValidation` returns `(ok, results)` with `ok = true` iff every
stage passes its policy (no `fail`, and no `warn` under `failOnWarn`); when
every stage passes, the result list is the concatenation of all stage
outputs; and when a first stage fails its policy, the pipeline aborts there:
`ok = false` and the result list is exactly the outputs of the stages up to
and including the aborting one — no check of any later stage contributes. -/
theorem runValidation_policy (g : GitOracle) (resolve : List String → List String)
    (env : List (String × String)) (config : ValidatorConfig) (options : RunOptions)
    (sched : Nat → List Nat) (dur : Nat) :
    ((runValidation g resolve env config options sched dur).1 = true ↔
      ∀ p ∈ scheduleStages config.stages sched,
        stageFails p.1 (stageOutput (contextOf g resolve env config options) dur p) = false)
    ∧ ((∀ p ∈ scheduleStages config.stages sched,
          stageFails p.1 (stageOutput (contextOf g resolve env config options) dur p) = false) →
        (runValidation g resolve env config options sched dur).2
          = ((scheduleStages config.stages sched).map
              (stageOutput (contextOf g resolve env config options) dur)).flatten)
    ∧ (∀ pre bad post, scheduleStages config.stages sched = pre ++ bad :: post →
        (∀ p ∈ pre,
          stageFails p.1 (stageOutput (contextOf g resolve env config options) dur p) = false) →
        stageFails bad.1 (stageOutput (contextOf g resolve env config options) dur bad) = true →
        runValidation g resolve env config options sched dur
          = (false,
              (pre.map (stageOutput (contextOf g resolve env config options) dur)).flatten
                ++ stageOutput (contextOf g resolve env config options) dur bad)) := by
  refine ⟨?_, ?_, ?_⟩
  · exact runStages_ok_iff (contextOf g resolve env config options) dur
      (scheduleStages config.stages sched)
  · intro h
    exact runStages_all_pass (contextOf g resolve env config options) dur
      (scheduleStages config.stages sched) h
  · intro pre bad post hsplit hpre hbad
    unfold runValidation
    rw [hsplit]
    exact runStages_abort (contextOf g resolve env config options) dur pre bad post hpre hbad

/-- Witness for C1: a concrete three-stage pipeline whose second stage fails
aborts with `ok = false` and exactly the first two stages' results. -/
theorem runValidation_policy_witness :
    runValidation gQuiet id [] cfgW optW (fun _ => []) 0
      = (false,
         [{ name := "P", status := .pass, durationMs := some 0, stage := some "one" },
          { name := "F", status := .fail, durationMs := some 0, stage := some "two" }]) := by
  have h := (runValidation_policy gQuiet id [] cfgW optW (fun _ => []) 0).2.2
      [(stageP, [])] (stageF, []) [(stageQ, [])] rfl
      (by
        intro p hp
        rw [List.mem_singleton] at hp
        subst hp
        decide)
      (by decide)
  rw [h]
  decide

/-! ## C7 — unknown reporter names -/

theorem splitEq_no_eq : ∀ (l : List Char), '=' ∉ l → splitEq l = [l] := by
  intro l
  induction l with
  | nil => intro _; rfl
  | cons c rest ih =>
      intro h
      have hc : ¬ c = '=' := fun hc => h (hc ▸ List.mem_cons_self c rest)
      have hrest : '=' ∉ rest := fun hm => h (List.mem_cons_of_mem c hm)
      simp only [splitEq, if_neg (fun hcc => hc hcc), ih hrest]

theorem splitEq_append : ∀ (l₁ l₂ : List Char), '=' ∉ l₁ →
    splitEq (l₁ ++ '=' :: l₂) = l₁ :: splitEq l₂ := by
  intro l₁
  induction l₁ with
  | nil =>
      intro l₂ _
      simp [splitEq]
  | cons c rest ih =>
      intro l₂ h
      have hc : ¬ c = '=' := fun hc => h (hc ▸ List.mem_cons_self c rest)
      have hrest : '=' ∉ rest := fun hm => h (List.mem_cons_of_mem c hm)
      simp only [List.cons_append, splitEq, if_neg (fun hcc => hc hcc), List.append_eq,
        ih l₂ hrest]

theorem keyValOf_flag (k v : String) (hk : '=' ∉ k.data) (hv : '=' ∉ v.data) :
    keyValOf (k ++ "=" ++ v) = (k, v) := by
  have hdata : (k ++ "=" ++ v).data = k.data ++ '=' :: v.data := by
    rw [String.data_append, String.data_append, List.append_assoc,
      show ("=" : String).data = ['='] from by decide]
    rfl
  unfold keyValOf
  rw [hdata, if_pos (by simp), splitEq_append k.data v.data hk, splitEq_no_eq v.data hv]

/-- C7 counterexample: with `--report=xml` (an unknown reporter) the parser
leaves the report option unset and `main` proceeds to run the pipeline with
the default `summary` reporter — there is no stderr/exit-1 branch for it. -/
theorem unknown_reporter_cex :
    (parseArgs ["node", "cli", "full", "--report=xml"]).2.report = none
    ∧ mainAction ["node", "cli", "full", "--report=xml"] 4 false
        = .runPipeline "full"
            { scope := .full, ci := false, maxWorkers := 3, report := "summary",
              e2e := .off, quiet := some false, verbose := some false } := by
  decide

/-- C7 as amended: an unrecognized `--report` value is silently ignored by
`parseArgs`; `buildOptions` then defaults the reporter to `summary`, and
`main` proceeds to run the pipeline normally — no error is printed and the
exit code is not forced to 1 before the stages run. -/
theorem unknown_reporter_defaults (v : String) (cpus : Nat) (ciEnv : Bool)
    (hv1 : v ≠ "summary") (hv2 : v ≠ "json") (hv3 : v ≠ "junit") (hv4 : '=' ∉ v.data) :
    (parseArgs ["node", "cli", "full", "--report=" ++ v]).2 = {}
    ∧ mainAction ["node", "cli", "full", "--report=" ++ v] cpus ciEnv
        = .runPipeline "full" (buildOptions "full" {} cpus ciEnv)
    ∧ (buildOptions "full" {} cpus ciEnv).report = "summary" := by
  have hkv : keyValOf ("--report=" ++ v) = ("--report", v) :=
    keyValOf_flag "--report" v (by decide) hv4
  have hstep : parseOneArg {} ("--report=" ++ v) = {} := by
    unfold parseOneArg
    rw [hkv]
    simp [hv1, hv2, hv3]
  have hparse : parseArgs ["node", "cli", "full", "--report=" ++ v] = ("full", {}) := by
    unfold parseArgs
    simp only [List.drop, List.foldl]
    rw [show parseOneArg {} "full" = {} by decide, hstep]
    rfl
  refine ⟨by rw [hparse], ?_, by rfl⟩
  unfold mainAction
  rw [hparse]
  rfl

/-- Witness for C7 (amended) at the unknown value `xml`. -/
theorem unknown_reporter_defaults_witness :
    (parseArgs ["node", "cli", "full", "--report=" ++ "xml"]).2 = ({} : CLIOptions)
    ∧ (buildOptions "full" {} 4 false).report = "summary" := by
  have h := unknown_reporter_defaults "xml" 4 false (by decide) (by decide) (by decide) (by decide)
  exact ⟨h.1, h.2.2⟩

/-! ## C6 — the tool prober -/

theorem matchTriple_cons_not_digit (c : Char) (l : List Char) (h : c.isDigit = false) :
    matchTriple (c :: l) = none := by
  unfold matchTriple
  rw [List.takeWhile_cons, h]
  simp

theorem matchTriple_head_digit (l g : List Char) (h : matchTriple l = some g) :
    ∃ d gs, g = d :: gs ∧ d.isDigit = true := by
  unfold matchTriple at h
  split at h
  all_goals try exact Option.noConfusion h
  split at h
  all_goals try exact Option.noConfusion h
  split at h
  all_goals try exact Option.noConfusion h
  have hg := Option.some.inj h
  rcases htw : List.takeWhile Char.isDigit l with _ | ⟨d, ds⟩
  · simp_all
  · have hm : d ∈ List.takeWhile Char.isDigit l := by
      rw [htw]
      exact List.mem_cons_self d ds
    rw [htw, List.cons_append] at hg
    exact ⟨d, _, hg.symm, List.mem_takeWhile_imp hm⟩

theorem stripV_of_digit_head (d : Char) (gs : List Char) (h : d.isDigit = true) :
    stripV (d :: gs) = d :: gs := by
  have hne : ¬ d = 'v' := by
    intro he
    rw [he] at h
    exact absurd h (by decide)
  simp [stripV, hne]

theorem findVersion_eq_spec : ∀ (l : List Char),
    findVersion l = (specFirstMatch l).map stripV := by
  intro l
  induction l with
  | nil => rfl
  | cons c rest ih =>
      by_cases hv : c = 'v'
      · subst hv
        have hnone : matchTriple ('v' :: rest) = none :=
          matchTriple_cons_not_digit 'v' rest (by decide)
        rcases hmt : matchTriple rest with _ | g
        · simp only [findVersion, specFirstMatch, hnone, hmt, if_pos rfl]
          exact ih
        · have hhead := matchTriple_head_digit rest g hmt
          simp only [findVersion, specFirstMatch, hnone, hmt, if_pos rfl, Option.map_some]
          simp [stripV]
      · rcases hmt : matchTriple (c :: rest) with _ | g
        · simp only [findVersion, specFirstMatch, hmt, if_neg hv]
          exact ih
        · rcases matchTriple_head_digit (c :: rest) g hmt with ⟨d, gs, hg, hd⟩
          simp only [findVersion, specFirstMatch, hmt, if_neg hv]
          rw [hg]
          simp [stripV_of_digit_head d gs hd]

/-- C6 counterexample: on stdout `v1.2.3` the first occurrence of the
pattern `v?\d+\.\d+\.\d+` is `v1.2.3`, but the prober reports the capture
group without the leading `v` — `1.2.3`. -/
theorem version_pattern_cex :
    ((specFirstMatch (jsTrim "v1.2.3").data).map String.mk = some "v1.2.3")
    ∧ (detectTool "tool" { outcome := .exited 0, stdout := "v1.2.3", stderr := "" }).version
        = some "1.2.3"
    ∧ some ("1.2.3" : String) ≠ some "v1.2.3" := by
  decide

/-- C6 as amended: a non-zero exit, a spawn error, or a timeout yields
`available = false` without raising (the model is a total function); on a
successful probe the reported version is the *numeric part* (the capture
group, without the optional leading `v`) of the first occurrence of
`v?\d+\.\d+\.\d+` in trimmed stdout, falling back to trimmed stderr when
stdout has no occurrence and stderr is nonempty. -/
theorem detectTool_robust_version (cmd : String) (p : ProbeResult) :
    (∀ code, p.outcome = .exited code → code ≠ 0 → (detectTool cmd p).available = false)
    ∧ (p.outcome = .spawnFailed → (detectTool cmd p).available = false)
    ∧ (p.outcome = .timedOut → (detectTool cmd p).available = false)
    ∧ (p.outcome = .exited 0 →
        (detectTool cmd p).available = true
        ∧ (detectTool cmd p).version = specVersionOf (jsTrim p.stdout) (jsTrim p.stderr)) := by
  refine ⟨?_, ?_, ?_, ?_⟩
  · intro code hcode hne
    unfold detectTool
    rw [hcode]
    have : ∀ cc : Int, cc ≠ 0 →
        (match (ProbeOutcome.exited cc) with
         | ProbeOutcome.exited 0 => true
         | _ => false) = false := by
      intro cc hcc
      match cc, hcc with
      | (0 : Int), hcc => exact absurd rfl hcc
      | (Int.ofNat (n+1)), _ => rfl
      | (Int.negSucc n), _ => rfl
    match code, hne with
    | (Int.ofNat (n+1)), _ => rfl
    | (Int.negSucc n), _ => rfl
    | (0 : Int), hne => exact absurd rfl hne
  · intro h
    unfold detectTool
    rw [h]
  · intro h
    unfold detectTool
    rw [h]
  · intro h
    unfold detectTool
    rw [h]
    refine ⟨rfl, ?_⟩
    show (match findVersionS (jsTrim p.stdout) with
          | some v => some v
          | none =>
              if jsTrim p.stderr ≠ "" then findVersionS (jsTrim p.stderr) else none)
        = specVersionOf (jsTrim p.stdout) (jsTrim p.stderr)
    unfold specVersionOf findVersionS
    rw [findVersion_eq_spec, findVersion_eq_spec]
    rcases specFirstMatch (jsTrim p.stdout).data with _ | m
    · simp only [Option.map_none]
      by_cases hs : jsTrim p.stderr ≠ ""
      · simp only [if_pos hs, Option.map_map]
        rfl
      · simp only [if_neg hs]
        rfl
    · simp only [Option.map_some]
      rfl

/-- Witness for C6 (amended): a failing probe is unavailable; a successful
probe printing the version to stderr reports the stderr occurrence. -/
theorem detectTool_robust_version_witness :
    (detectTool "tsc" { outcome := .exited 2, stdout := "", stderr := "" }).available = false
    ∧ (detectTool "tsc" { outcome := .timedOut, stdout := "", stderr := "" }).available = false
    ∧ (detectTool "tsc" { outcome := .exited 0, stdout := "ok", stderr := "tsc v5.4.2 " }).version
        = specVersionOf (jsTrim "ok") (jsTrim "tsc v5.4.2 ")
    ∧ specVersionOf (jsTrim "ok") (jsTrim "tsc v5.4.2 ") = some "5.4.2" := by
  refine ⟨?_, ?_, ?_, ?_⟩
  · exact (detectTool_robust_version "tsc"
      { outcome := .exited 2, stdout := "", stderr := "" }).1 2 rfl (by decide)
  · exact (detectTool_robust_version "tsc"
      { outcome := .timedOut, stdout := "", stderr := "" }).2.2.1 rfl
  · exact ((detectTool_robust_version "tsc"
      { outcome := .exited 0, stdout := "ok", stderr := "tsc v5.4.2 " }).2.2.2 rfl).2
  · decide

/-! ## C3 / C9 — result ordering of parallel stages -/

theorem firstIndexOf_nodup (names : List String) (hn : names.Nodup) :
    ∀ (i : Nat) (h : i < names.length), firstIndexOf names (names.get ⟨i, h⟩) = some i := by
  induction names with
  | nil => intro i h; exact absurd h (by simp)
  | cons m rest ih =>
      intro i h
      match i with
      | 0 => simp [firstIndexOf]
      | j + 1 =>
          have hj : j < rest.length := by
            simpa using h
          have hmem : rest.get ⟨j, hj⟩ ∈ rest := List.get_mem rest j hj
          have hne : ¬ m = rest.get ⟨j, hj⟩ := by
            intro he
            exact (List.nodup_cons.mp hn).1 (he ▸ hmem)
          have : (m :: rest).get ⟨j + 1, h⟩ = rest.get ⟨j, hj⟩ := rfl
          rw [this]
          simp only [firstIndexOf, if_neg hne, ih (List.nodup_cons.mp hn).2 j hj]
          rfl

theorem firstIndexOf_first (names : List String) (n : String) :
    ∀ (i : Nat) (h : i < names.length), names.get ⟨i, h⟩ = n →
      ∃ k, ∃ (hk : k < names.length), k ≤ i ∧ firstIndexOf names n = some k
        ∧ names.get ⟨k, hk⟩ = n := by
  induction names with
  | nil => intro i h; exact absurd h (by simp)
  | cons m rest ih =>
      intro i h he
      by_cases hm : m = n
      · exact ⟨0, by simp, Nat.zero_le i, by simp [firstIndexOf, hm], hm⟩
      · match i, h, he with
        | 0, h, he => exact absurd he hm
        | j + 1, h, he =>
            have hj : j < rest.length := by simpa using h
            rcases ih j hj he with ⟨k, hk, hki, hfio, hget⟩
            refine ⟨k + 1, by simpa using hk, Nat.succ_le_succ hki, ?_, hget⟩
            simp only [firstIndexOf, if_neg hm, hfio]
            rfl

theorem sortKey_get (tasks : List TaskSpec) (declared : List PluginResult)
    (hn : (taskNames tasks).Nodup)
    (hnames : declared.map PluginResult.name = taskNames tasks) :
    ∀ (i : Nat) (h : i < declared.length), sortKey tasks (declared.get ⟨i, h⟩) = i := by
  intro i h
  have hlen : declared.length = (taskNames tasks).length := by
    rw [← hnames, List.length_map]
  have hmap : i < (declared.map PluginResult.name).length := by
    simpa using h
  have h1 : (declared.map PluginResult.name).get ⟨i, hmap⟩ = (declared.get ⟨i, h⟩).name := by
    simp
  have h2 := List.get_of_eq hnames ⟨i, hmap⟩
  have hname : (declared.get ⟨i, h⟩).name
      = (taskNames tasks).get ⟨i, by rw [← hnames]; simpa using h⟩ := h1.symm.trans h2
  unfold sortKey
  rw [hname, firstIndexOf_nodup (taskNames tasks) hn i _]
  rfl

theorem sortKey_mem (tasks : List TaskSpec) (declared : List PluginResult)
    (hn : (taskNames tasks).Nodup)
    (hnames : declared.map PluginResult.name = taskNames tasks) :
    ∀ r ∈ declared, ∃ i, ∃ (h : i < declared.length),
      declared.get ⟨i, h⟩ = r ∧ sortKey tasks r = i := by
  intro r hr
  rcases List.mem_iff_get.mp hr with ⟨⟨i, h⟩, hget⟩
  exact ⟨i, h, hget, by rw [← hget]; exact sortKey_get tasks declared hn hnames i h⟩

/-- Shared helper for C3 and C9: when the stage's task names are pairwise
distinct and every task's result carries its task's name, sorting any
completion-order permutation of the results restores declaration order. -/
theorem sortResults_of_distinct (tasks : List TaskSpec)
    (declared completed : List PluginResult)
    (hn : (taskNames tasks).Nodup)
    (hnames : declared.map PluginResult.name = taskNames tasks)
    (hperm : completed.Perm declared) :
    sortResultsByTaskOrder completed tasks = declared := by
  haveI htot : IsTotal PluginResult (fun a b => sortKey tasks a ≤ sortKey tasks b) :=
    ⟨fun a b => Nat.le_total _ _⟩
  haveI htr : IsTrans PluginResult (fun a b => sortKey tasks a ≤ sortKey tasks b) :=
    ⟨fun _ _ _ hab hbc => Nat.le_trans hab hbc⟩
  have hsorted : List.Sorted (fun a b => sortKey tasks a ≤ sortKey tasks b)
      (sortResultsByTaskOrder completed tasks) :=
    List.sorted_insertionSort _ completed
  have hperm' : (sortResultsByTaskOrder completed tasks).Perm declared :=
    (List.perm_insertionSort _ completed).trans hperm
  have hdecl : List.Pairwise (fun a b => sortKey tasks a ≤ sortKey tasks b) declared := by
    rw [List.pairwise_iff_get]
    intro i j hij
    rw [sortKey_get tasks declared hn hnames i.1 i.2,
      sortKey_get tasks declared hn hnames j.1 j.2]
    exact Nat.le_of_lt hij
  refine List.Perm.eq_of_sorted ?_ hsorted hdecl hperm'
  intro a b ha hb hab hba
  have ha' : a ∈ declared := hperm'.subset ha
  rcases sortKey_mem tasks declared hn hnames a ha' with ⟨i, hi, hgeti, hkeya⟩
  rcases sortKey_mem tasks declared hn hnames b hb with ⟨j, hj, hgetj, hkeyb⟩
  have hij : i = j := by
    apply Nat.le_antisymm
    · rw [← hkeya, ← hkeyb]; exact hab
    · rw [← hkeya, ← hkeyb]; exact hba
  rw [← hgeti, ← hgetj]
  subst hij
  rfl

theorem insertionSort_filter_stable {α : Type} (key : α → Nat) (p : α → Bool)
    (hp : ∀ a b, p a = true → p b = true → key a = key b) :
    ∀ l : List α,
      (List.insertionSort (fun a b => key a ≤ key b) l).filter p = l.filter p := by
  intro l
  induction l with
  | nil => rfl
  | cons a l ih =>
      show (List.orderedInsert _ a (List.insertionSort _ l)).filter p = _
      rw [List.orderedInsert_eq_take_drop, List.filter_append]
      have hsd : List.filter p (List.insertionSort (fun a b => key a ≤ key b) l)
          = List.filter p
              (List.takeWhile (fun b => decide ¬ (key a ≤ key b))
                (List.insertionSort (fun a b => key a ≤ key b) l))
            ++ List.filter p
              (List.dropWhile (fun b => decide ¬ (key a ≤ key b))
                (List.insertionSort (fun a b => key a ≤ key b) l)) := by
        rw [← List.filter_append, List.takeWhile_append_dropWhile]
      by_cases hpa : p a = true
      · have htw : List.filter p
            (List.takeWhile (fun b => decide ¬ (key a ≤ key b))
              (List.insertionSort (fun a b => key a ≤ key b) l)) = [] := by
          rw [List.filter_eq_nil_iff]
          intro x hx hpx
          have h1 := @List.mem_takeWhile_imp α (fun b => decide ¬ (key a ≤ key b))
            (List.insertionSort (fun a b => key a ≤ key b) l) x hx
          have hklt : ¬ (key a ≤ key x) := of_decide_eq_true h1
          exact hklt (le_of_eq (hp a x hpa hpx))
        rw [htw, List.nil_append, List.filter_cons_of_pos hpa,
          List.filter_cons_of_pos hpa, ← ih, hsd, htw, List.nil_append]
      · have hpa' : ¬ p a = true := hpa
        rw [List.filter_cons_of_neg hpa', List.filter_cons_of_neg hpa', ← ih, hsd]

/-- C3 counterexample: a parallel stage with two checks sharing the display
name `A`; under the completion order `[1, 0]` (second check finishes first,
realisable with two workers) the re-sorted stage output stays in completion
order, not declaration order, even though it is a permutation of the
declaration-order output. -/
theorem parallel_order_cex :
    sortResultsByTaskOrder (runParallelCompletion tasksAA [1, 0] ctxFix 0) tasksAA
        = [{ name := "A", status := .pass, stdout := some "second", durationMs := some 0 },
           { name := "A", status := .pass, stdout := some "first", durationMs := some 0 }]
    ∧ sortResultsByTaskOrder (runParallelCompletion tasksAA [1, 0] ctxFix 0) tasksAA
        ≠ [{ name := "A", status := .pass, stdout := some "first", durationMs := some 0 },
           { name := "A", status := .pass, stdout := some "second", durationMs := some 0 }]
    ∧ (runParallelCompletion tasksAA [1, 0] ctxFix 0).Perm
        (runParallelCompletion tasksAA [0, 1] ctxFix 0) := by
  decide

/-- C3 as amended: for a parallel stage whose check display names are
pairwise distinct (and whose checks return results carrying their declared
names), the re-sorted results equal the declaration-order list for *every*
completion order — the output order is a deterministic function of the
configuration order.  With duplicated names the re-sort can keep completion
order (see the counterexample). -/
theorem parallel_order_of_distinct_names (tasks : List TaskSpec)
    (declared completed : List PluginResult)
    (hn : (taskNames tasks).Nodup)
    (hnames : declared.map PluginResult.name = taskNames tasks)
    (hperm : completed.Perm declared) :
    sortResultsByTaskOrder completed tasks = declared :=
  sortResults_of_distinct tasks declared completed hn hnames hperm

/-- Witness for C3 (amended): two distinct-named tasks completing in swapped
order are re-sorted back to declaration order. -/
theorem parallel_order_of_distinct_names_witness :
    sortResultsByTaskOrder
        [{ name := "B", status := .pass }, { name := "A", status := .pass }]
        [{ plugin := constPlugin "A" { name := "A", status := .pass } },
         { plugin := constPlugin "B" { name := "B", status := .pass } }]
      = [{ name := "A", status := .pass }, { name := "B", status := .pass }] :=
  parallel_order_of_distinct_names
    [{ plugin := constPlugin "A" { name := "A", status := .pass } },
     { plugin := constPlugin "B" { name := "B", status := .pass } }]
    [{ name := "A", status := .pass }, { name := "B", status := .pass }]
    [{ name := "B", status := .pass }, { name := "A", status := .pass }]
    (by decide) (by decide) (by decide)

/-- C9: the parallel re-sort keys results by display name: (i) filtering the
sorted output on any name gives exactly the completion-ordered occurrences of
that name (equal-keyed results stay in completion order); (ii) two tasks
sharing a name are both assigned the first occurrence's declaration index;
(iii) with pairwise-distinct names the output is declaration order. -/
theorem sortResults_keyed_by_name (tasks : List TaskSpec)
    (completed : List PluginResult) (n : String) :
    ((sortResultsByTaskOrder completed tasks).filter (fun r => decide (r.name = n))
        = completed.filter (fun r => decide (r.name = n)))
    ∧ (∀ i j (hi : i < (taskNames tasks).length) (hj : j < (taskNames tasks).length),
        (taskNames tasks).get ⟨i, hi⟩ = (taskNames tasks).get ⟨j, hj⟩ →
        ∃ k, ∃ (hk : k < (taskNames tasks).length), k ≤ i ∧ k ≤ j
          ∧ firstIndexOf (taskNames tasks) ((taskNames tasks).get ⟨j, hj⟩) = some k
          ∧ (taskNames tasks).get ⟨k, hk⟩ = (taskNames tasks).get ⟨j, hj⟩)
    ∧ (∀ declared, (taskNames tasks).Nodup →
        declared.map PluginResult.name = taskNames tasks →
        completed.Perm declared → sortResultsByTaskOrder completed tasks = declared) := by
  refine ⟨?_, ?_, ?_⟩
  · unfold sortResultsByTaskOrder
    refine insertionSort_filter_stable (sortKey tasks) _ ?_ completed
    intro a b hfa hfb
    have hna : a.name = n := of_decide_eq_true hfa
    have hnb : b.name = n := of_decide_eq_true hfb
    unfold sortKey
    rw [hna, hnb]
  · intro i j hi hj heq
    rcases firstIndexOf_first (taskNames tasks) ((taskNames tasks).get ⟨j, hj⟩) i hi heq
      with ⟨k, hk, hki, hfio, hget⟩
    rcases firstIndexOf_first (taskNames tasks) ((taskNames tasks).get ⟨j, hj⟩) j hj rfl
      with ⟨k', hk', hkj, hfio', _⟩
    have hkk : k = k' := by
      have := hfio.symm.trans hfio'
      exact Option.some.inj this
    exact ⟨k, hk, hki, hkk ▸ hkj, hfio, hget⟩
  · intro declared hn hnames hperm
    exact sortResults_of_distinct tasks declared completed hn hnames hperm

/-- Witness for C9 at concrete same-named tasks and a distinct-named stage. -/
theorem sortResults_keyed_by_name_witness :
    (sortResultsByTaskOrder (runParallelCompletion tasksAA [1, 0] ctxFix 0) tasksAA).filter
        (fun r => decide (r.name = "A"))
      = (runParallelCompletion tasksAA [1, 0] ctxFix 0).filter (fun r => decide (r.name = "A"))
    ∧ firstIndexOf (taskNames tasksAA) ((taskNames tasksAA).get ⟨1, by decide⟩) = some 0 := by
  constructor
  · exact (sortResults_keyed_by_name tasksAA (runParallelCompletion tasksAA [1, 0] ctxFix 0)
      "A").1
  · rcases (sortResults_keyed_by_name tasksAA [] "A").2.1 0 1 (by decide) (by decide)
        (by decide) with ⟨k, hk, hk0, _, hfio, _⟩
    have hkz : k = 0 := Nat.le_zero.mp hk0
    rw [← hkz, hfio]

/-! ## C8 — the finding aggregator -/

theorem lookupA_setA_self {β : Type} (m : List (String × β)) (k : String) (v : β) :
    lookupA (setA m k v) k = some v := by
  induction m with
  | nil => simp [setA, lookupA]
  | cons e rest ih =>
      by_cases he : e.1 = k
      · simp [setA, lookupA, he]
      · simp [setA, lookupA, he, ih]

theorem lookupA_setA_ne {β : Type} (m : List (String × β)) (k : String) (v : β)
    (k' : String) (h : k' ≠ k) : lookupA (setA m k v) k' = lookupA m k' := by
  have hkk : ¬ k = k' := fun he => h he.symm
  induction m with
  | nil => simp only [setA, lookupA, if_neg hkk]
  | cons e rest ih =>
      by_cases he : e.1 = k
      · have he' : ¬ e.1 = k' := fun hh => h (he.symm.trans hh).symm
        simp only [setA, if_pos he, lookupA, if_neg hkk, if_neg he']
      · simp only [setA, if_neg he, lookupA]
        by_cases he' : e.1 = k'
        · simp only [if_pos he']
        · simp only [if_neg he', ih]

theorem mapFst_setA {β : Type} (m : List (String × β)) (k : String) (v : β) :
    (lookupA m k = none → (setA m k v).map Prod.fst = m.map Prod.fst ++ [k])
    ∧ (∀ g, lookupA m k = some g → (setA m k v).map Prod.fst = m.map Prod.fst) := by
  induction m with
  | nil => simp [setA, lookupA]
  | cons e rest ih =>
      by_cases he : e.1 = k
      · constructor
        · intro h
          rw [lookupA, if_pos he] at h
          exact absurd h (by simp)
        · intro g _
          simp [setA, he]
      · constructor
        · intro h
          rw [lookupA, if_neg he] at h
          simp [setA, he, ih.1 h]
        · intro g h
          rw [lookupA, if_neg he] at h
          simp [setA, he, ih.2 g h]

theorem lookupA_none_not_mem {β : Type} (m : List (String × β)) (k : String)
    (h : lookupA m k = none) : k ∉ m.map Prod.fst := by
  induction m with
  | nil => simp
  | cons e rest ih =>
      rw [lookupA] at h
      by_cases he : e.1 = k
      · rw [if_pos he] at h
        exact absurd h (by simp)
      · rw [if_neg he] at h
        simp only [List.map_cons, List.mem_cons]
        rintro (hk | hk)
        · exact he hk.symm
        · exact ih h hk

theorem lookupA_of_mem_nodup {β : Type} (m : List (String × β)) (k : String) (g : β)
    (hnd : (m.map Prod.fst).Nodup) (hm : (k, g) ∈ m) : lookupA m k = some g := by
  induction m with
  | nil => exact absurd hm (by simp)
  | cons e rest ih =>
      rcases List.mem_cons.mp hm with rfl | hm'
      · simp [lookupA]
      · have hnd' := (List.nodup_cons.mp hnd).2
        have hke : ¬ e.1 = k := by
          intro he
          apply (List.nodup_cons.mp hnd).1
          rw [he]
          exact List.mem_map_of_mem Prod.fst hm'
        rw [lookupA, if_neg hke]
        exact ih hnd' hm'

theorem setA_nodup {β : Type} (m : List (String × β)) (k : String) (v : β)
    (hnd : (m.map Prod.fst).Nodup) : ((setA m k v).map Prod.fst).Nodup := by
  rcases hl : lookupA m k with _ | g
  · rw [(mapFst_setA m k v).1 hl]
    refine List.Nodup.append hnd (by simp) ?_
    intro a ha hb
    rw [List.mem_singleton] at hb
    exact lookupA_none_not_mem m k hl (hb ▸ ha)
  · rw [(mapFst_setA m k v).2 g hl]
    exact hnd

theorem lexLe_total : ∀ (a b : List Char), lexLe a b = true ∨ lexLe b a = true := by
  intro a
  induction a with
  | nil => intro b; left; rfl
  | cons x as ih =>
      intro b
      match b with
      | [] => right; rfl
      | y :: bs =>
          by_cases hxy : x = y
          · subst hxy
            rcases ih bs with h | h
            · left; simpa [lexLe] using h
            · right; simpa [lexLe] using h
          · rcases lt_or_gt_of_ne hxy with h | h
            · left
              simp [lexLe, hxy, h]
            · right
              have hyx : ¬ y = x := fun he => hxy he.symm
              simp [lexLe, hyx, h]

theorem lexLe_trans : ∀ (a b c : List Char),
    lexLe a b = true → lexLe b c = true → lexLe a c = true := by
  intro a
  induction a with
  | nil => intro b c _ _; rfl
  | cons x as ih =>
      intro b c hab hbc
      match b, c with
      | [], _ => exact absurd hab (by simp [lexLe])
      | _ :: _, [] => exact absurd hbc (by simp [lexLe])
      | y :: bs, z :: cs =>
          by_cases hxy : x = y <;> by_cases hyz : y = z
          · subst hxy; subst hyz
            rw [lexLe, if_pos rfl] at hab hbc ⊢
            exact ih bs cs hab hbc
          · subst hxy
            rw [lexLe, if_neg hyz] at hbc
            rw [lexLe, if_neg hyz]
            exact hbc
          · subst hyz
            rw [lexLe, if_neg hxy] at hab
            rw [lexLe, if_neg hxy]
            exact hab
          · rw [lexLe, if_neg hxy] at hab
            rw [lexLe, if_neg hyz] at hbc
            have hxz : x < z := lt_trans (of_decide_eq_true hab) (of_decide_eq_true hbc)
            rw [lexLe, if_neg (ne_of_lt hxz)]
            exact decide_eq_true hxz

theorem fvLe_total_trans :
    (∀ a b : String × FileViolation, fvLe a b ∨ fvLe b a)
    ∧ (∀ a b c : String × FileViolation, fvLe a b → fvLe b c → fvLe a c) :=
  ⟨fun a b => lexLe_total a.1.data b.1.data,
   fun a b c hab hbc => lexLe_trans a.1.data b.1.data c.1.data hab hbc⟩

theorem groupLe_total_trans :
    (∀ a b : RuleViolation, groupLe a b ∨ groupLe b a)
    ∧ (∀ a b c : RuleViolation, groupLe a b → groupLe b c → groupLe a c) := by
  constructor
  · intro a b
    rcases lt_trichotomy (severityOrder a.severity) (severityOrder b.severity) with h | h | h
    · exact Or.inl (Or.inl h)
    · rcases lexLe_total a.rule.data b.rule.data with hr | hr
      · exact Or.inl (Or.inr ⟨h, hr⟩)
      · exact Or.inr (Or.inr ⟨h.symm, hr⟩)
    · exact Or.inr (Or.inl h)
  · intro a b c hab hbc
    rcases hab with hab | ⟨hab, hra⟩
    · rcases hbc with hbc | ⟨hbc, _⟩
      · exact Or.inl (lt_trans hab hbc)
      · exact Or.inl (hbc ▸ hab)
    · rcases hbc with hbc | ⟨hbc, hrb⟩
      · exact Or.inl (hab ▸ hbc)
      · exact Or.inr ⟨hab.trans hbc, lexLe_trans _ _ _ hra hrb⟩

theorem setA_setA {β : Type} (m : List (String × β)) (k : String) (v v' : β) :
    setA (setA m k v) k v' = setA m k v' := by
  induction m with
  | nil => simp [setA]
  | cons e rest ih =>
      by_cases he : e.1 = k
      · simp [setA, he]
      · simp [setA, he, ih]

theorem mem_of_lookupA {β : Type} (m : List (String × β)) (k : String) (g : β)
    (h : lookupA m k = some g) : (k, g) ∈ m := by
  induction m with
  | nil => exact absurd h (by simp [lookupA])
  | cons e rest ih =>
      rcases e with ⟨e1, e2⟩
      by_cases he : e1 = k
      · rw [lookupA, if_pos he] at h
        have : e2 = g := Option.some.inj h
        subst this
        subst he
        exact List.mem_cons_self _ _
      · rw [lookupA, if_neg he] at h
        exact List.mem_cons_of_mem _ (ih h)

theorem addFinding_of_none (m : List (String × RuleViolation)) (f : Finding)
    (h : lookupA m f.code = none) :
    addFinding m f = setA m f.code (updateGroup (newGroup f) f) := by
  unfold addFinding
  simp only [h, lookupA_setA_self, setA_setA]

theorem addFinding_of_some (m : List (String × RuleViolation)) (f : Finding)
    (g0 : RuleViolation) (h : lookupA m f.code = some g0) :
    addFinding m f = setA m f.code (updateGroup g0 f) := by
  unfold addFinding
  simp only [h]

theorem updateGroup_rule (g : RuleViolation) (f : Finding) :
    (updateGroup g f).rule = g.rule := by
  simp [updateGroup]

theorem updateGroup_count (g : RuleViolation) (f : Finding) :
    (updateGroup g f).count = g.count + 1 := by
  simp [updateGroup]

theorem updateGroup_sev_le_left (g : RuleViolation) (f : Finding) :
    severityOrder (updateGroup g f).severity ≤ severityOrder g.severity := by
  by_cases h : severityOrder f.level < severityOrder g.severity
  · simp only [updateGroup, if_pos h]
    exact Nat.le_of_lt h
  · simp only [updateGroup, if_neg h]
    exact Nat.le_refl _

theorem updateGroup_sev_le_right (g : RuleViolation) (f : Finding) :
    severityOrder (updateGroup g f).severity ≤ severityOrder f.level := by
  by_cases h : severityOrder f.level < severityOrder g.severity
  · simp only [updateGroup, if_pos h]
    exact Nat.le_refl _
  · simp only [updateGroup, if_neg h]
    exact Nat.le_of_not_lt h

theorem fvProps_extend (p : List Finding) (f : Finding) (k : String)
    (fv : List (String × FileViolation)) (hkf : ¬ f.code = k) (h : fvProps p k fv) :
    fvProps (p ++ [f]) k fv := by
  obtain ⟨hnd, hnone, hcount⟩ := h
  refine ⟨hnd, ?_, ?_⟩
  · intro key hkey f' hf' hc' hfe
    rcases List.mem_append.mp hf' with hf' | hf'
    · exact hnone key hkey f' hf' hc' hfe
    · rw [List.mem_singleton] at hf'
      subst hf'
      exact absurd hc' hkf
  · intro key d hkey
    rw [List.filter_append,
      show List.filter (fun x => decide (x.code = k) && decide (x.file ≠ "") &&
        decide (fileKeyOf x = key)) [f] = [] from by simp [hkf], List.append_nil]
    exact hcount key d hkey

theorem fvProps_updateGroup (p : List Finding) (f : Finding) (g : RuleViolation)
    (h : fvProps p f.code g.fileViolations) :
    fvProps (p ++ [f]) f.code (updateGroup g f).fileViolations := by
  obtain ⟨hnd, hnone, hcount⟩ := h
  by_cases hfile : f.file ≠ ""
  · have hfv : (updateGroup g f).fileViolations = updateFileViolations g.fileViolations f := by
      simp [updateGroup, hfile]
    rw [hfv]
    simp only [updateFileViolations]
    refine ⟨setA_nodup _ _ _ hnd, ?_, ?_⟩
    · intro key hkey f' hf' hc' hfe
      by_cases hkk : key = fileKeyOf f
      · rw [hkk, lookupA_setA_self] at hkey
        exact absurd hkey (by simp)
      · rw [lookupA_setA_ne _ (fileKeyOf f) _ key hkk] at hkey
        rcases List.mem_append.mp hf' with hf' | hf'
        · exact hnone key hkey f' hf' hc' hfe
        · rw [List.mem_singleton] at hf'
          subst hf'
          exact fun he => hkk he.symm
    · intro key d hkey
      by_cases hkk : key = fileKeyOf f
      · subst hkk
        rw [lookupA_setA_self] at hkey
        obtain rfl := Option.some.inj hkey
        rw [List.filter_append,
          show List.filter (fun x => decide (x.code = f.code) && decide (x.file ≠ "") &&
            decide (fileKeyOf x = fileKeyOf f)) [f] = [f] from by simp [hfile],
          List.length_append]
        rcases hcur : lookupA g.fileViolations (fileKeyOf f) with _ | cur
        · have hz : (p.filter fun x => decide (x.code = f.code) && decide (x.file ≠ "") &&
              decide (fileKeyOf x = fileKeyOf f)) = [] := by
            rw [List.filter_eq_nil_iff]
            intro x hx hdx
            simp only [Bool.and_eq_true, decide_eq_true_eq] at hdx
            exact hnone (fileKeyOf f) hcur x hx hdx.1.1 hdx.1.2 hdx.2
          rw [hz]
          simp [hcur]
        · have := hcount (fileKeyOf f) cur hcur
          simp only [hcur, Option.getD_some]
          rw [this]
          rfl
      · rw [lookupA_setA_ne _ (fileKeyOf f) _ key hkk] at hkey
        rw [List.filter_append,
          show List.filter (fun x => decide (x.code = f.code) && decide (x.file ≠ "") &&
            decide (fileKeyOf x = key)) [f] = [] from by
              have hne : ¬ fileKeyOf f = key := fun he => hkk he.symm
              simp [hne],
          List.append_nil]
        exact hcount key d hkey
  · have hfe : f.file = "" := by simpa using hfile
    have hfv : (updateGroup g f).fileViolations = g.fileViolations := by
      simp [updateGroup, hfe]
    rw [hfv]
    refine ⟨hnd, ?_, ?_⟩
    · intro key hkey f' hf' hc' hfe'
      rcases List.mem_append.mp hf' with hf' | hf'
      · exact hnone key hkey f' hf' hc' hfe'
      · rw [List.mem_singleton] at hf'
        subst hf'
        exact absurd hfe hfe'
    · intro key d hkey
      rw [List.filter_append,
        show List.filter (fun x => decide (x.code = f.code) && decide (x.file ≠ "") &&
          decide (fileKeyOf x = key)) [f] = [] from by simp [hfe],
        List.append_nil]
      exact hcount key d hkey

theorem fvProps_nil_of_fresh (p : List Finding) (k : String)
    (h : ∀ f ∈ p, f.code ≠ k) : fvProps p k [] := by
  refine ⟨by simp, ?_, ?_⟩
  · intro key _ f' hf' hc' _
    exact absurd hc' (h f' hf')
  · intro key d hkey
    exact absurd hkey (by simp [lookupA])

theorem groupProps_extend (p : List Finding) (f : Finding) (k : String)
    (g : RuleViolation) (hkf : ¬ f.code = k) (h : groupProps p k g) :
    groupProps (p ++ [f]) k g := by
  obtain ⟨hrule, ⟨f', hf', hc', hl'⟩, hbound, hcount, hfv⟩ := h
  refine ⟨hrule, ⟨f', List.mem_append_left _ hf', hc', hl'⟩, ?_, ?_,
    fvProps_extend p f k g.fileViolations hkf hfv⟩
  · intro x hx hc
    rcases List.mem_append.mp hx with hx | hx
    · exact hbound x hx hc
    · rw [List.mem_singleton] at hx
      subst hx
      exact absurd hc hkf
  · rw [List.filter_append, show List.filter (fun x => decide (x.code = k)) [f] = []
      from by simp [hkf], List.append_nil]
    exact hcount

theorem addFinding_inv (p : List Finding) (m : List (String × RuleViolation))
    (f : Finding) (inv : GroupsInv p m) : GroupsInv (p ++ [f]) (addFinding m f) := by
  obtain ⟨hnd, hnone, hsome⟩ := inv
  rcases hl : lookupA m f.code with _ | g0
  · rw [addFinding_of_none m f hl]
    refine ⟨setA_nodup m f.code _ hnd, ?_, ?_⟩
    · intro k hk f' hf'
      by_cases hkf : k = f.code
      · rw [hkf, lookupA_setA_self] at hk
        exact absurd hk (by simp)
      · rw [lookupA_setA_ne m f.code _ k hkf] at hk
        rcases List.mem_append.mp hf' with hf' | hf'
        · exact hnone k hk f' hf'
        · rw [List.mem_singleton] at hf'
          subst hf'
          exact fun he => hkf he.symm
    · intro k g hk
      by_cases hkf : k = f.code
      · subst hkf
        rw [lookupA_setA_self] at hk
        obtain rfl := Option.some.inj hk
        refine ⟨?_, ?_, ?_, ?_, ?_⟩
        · simp [updateGroup, newGroup]
        · exact ⟨f, List.mem_append_right _ (List.mem_singleton_self f), rfl,
            by simp [updateGroup, newGroup]⟩
        · intro f' hf' hc
          rcases List.mem_append.mp hf' with hf' | hf'
          · exact absurd hc (hnone f.code hl f' hf')
          · rw [List.mem_singleton] at hf'
            subst hf'
            exact updateGroup_sev_le_right _ f'
        · have hp0 : p.filter (fun x => decide (x.code = f.code)) = [] := by
            rw [List.filter_eq_nil_iff]
            intro x hx hdx
            exact hnone f.code hl x hx (of_decide_eq_true hdx)
          rw [List.filter_append, hp0, List.nil_append]
          simp [updateGroup, newGroup]
        · have hbase : fvProps p f.code (newGroup f).fileViolations := by
            show fvProps p f.code []
            exact fvProps_nil_of_fresh p f.code (hnone f.code hl)
          exact fvProps_updateGroup p f (newGroup f) hbase
      · rw [lookupA_setA_ne m f.code _ k hkf] at hk
        exact groupProps_extend p f k g (fun he => hkf he.symm) (hsome k g hk)
  · rw [addFinding_of_some m f g0 hl]
    obtain ⟨hrule0, hatt0, hbound0, hcount0, hfv0⟩ := hsome f.code g0 hl
    refine ⟨setA_nodup m f.code _ hnd, ?_, ?_⟩
    · intro k hk f' hf'
      by_cases hkf : k = f.code
      · rw [hkf, lookupA_setA_self] at hk
        exact absurd hk (by simp)
      · rw [lookupA_setA_ne m f.code _ k hkf] at hk
        rcases List.mem_append.mp hf' with hf' | hf'
        · exact hnone k hk f' hf'
        · rw [List.mem_singleton] at hf'
          subst hf'
          exact fun he => hkf he.symm
    · intro k g hk
      by_cases hkf : k = f.code
      · subst hkf
        rw [lookupA_setA_self] at hk
        obtain rfl := Option.some.inj hk
        refine ⟨?_, ?_, ?_, ?_, fvProps_updateGroup p f g0 hfv0⟩
        · rw [updateGroup_rule]
          exact hrule0
        · by_cases hsev : severityOrder f.level < severityOrder g0.severity
          · exact ⟨f, List.mem_append_right _ (List.mem_singleton_self f), rfl,
              by simp [updateGroup, hsev]⟩
          · rcases hatt0 with ⟨f', hf', hc', hl'⟩
            exact ⟨f', List.mem_append_left _ hf', hc',
              by rw [hl']; simp [updateGroup, hsev]⟩
        · intro f' hf' hc
          rcases List.mem_append.mp hf' with hf' | hf'
          · exact Nat.le_trans (updateGroup_sev_le_left g0 f) (hbound0 f' hf' hc)
          · rw [List.mem_singleton] at hf'
            subst hf'
            exact updateGroup_sev_le_right g0 f'
        · rw [List.filter_append,
            show List.filter (fun x => decide (x.code = f.code)) [f] = [f] from by simp,
            List.length_append, updateGroup_count, hcount0]
          rfl
      · rw [lookupA_setA_ne m f.code _ k hkf] at hk
        exact groupProps_extend p f k g (fun he => hkf he.symm) (hsome k g hk)

theorem foldl_addFinding_inv : ∀ (fs p : List Finding) (m : List (String × RuleViolation)),
    GroupsInv p m → GroupsInv (p ++ fs) (fs.foldl addFinding m) := by
  intro fs
  induction fs with
  | nil =>
      intro p m h
      simpa using h
  | cons f fs ih =>
      intro p m h
      have h2 := ih (p ++ [f]) (addFinding m f) (addFinding_inv p m f h)
      rw [List.append_assoc] at h2
      simpa using h2

theorem buildGroups_inv (findings : List Finding) :
    GroupsInv findings (buildGroups findings) := by
  have h0 : GroupsInv [] [] :=
    ⟨by simp, fun _ _ f hf => absurd hf (by simp),
      fun _ g hk => absurd hk (by simp [lookupA])⟩
  have h := foldl_addFinding_inv findings [] [] h0
  simpa [buildGroups] using h

/-- C8 counterexample: two findings of the same rule on `a.ts` lines 1 and 2.
The aggregator keys occurrences by `file:line`, producing two entries of
count 1 (`a.ts:1`, `a.ts:2`) — not, as the claim's per-*file* counts would
have it, one entry `a.ts` of count 2. -/
theorem aggregate_perfile_cex :
    ((aggregateByRule
        [{ file := "a.ts", line := some 1, level := .error, code := "c", message := "m" },
         { file := "a.ts", line := some 2, level := .error, code := "c", message := "m" }]).map
      (fun v => v.fileViolations.map (fun e => (e.1, e.2.count))))
      = [[("a.ts:1", 1), ("a.ts:2", 1)]]
    ∧ specPerFileCounts
        [{ file := "a.ts", line := some 1, level := .error, code := "c", message := "m" },
         { file := "a.ts", line := some 2, level := .error, code := "c", message := "m" }] "c"
      = [("a.ts", 2)]
    ∧ ([[("a.ts:1", (1 : Nat)), ("a.ts:2", 1)]]
        ≠ [[("a.ts", (2 : Nat))]]) := by
  decide

/-- C8 as amended: `aggregateByRule` groups findings by rule code; each
group's effective severity is the most severe level among its findings
(attained by one of them and bounding all of them), its count is the number
of findings with its code, its occurrence entries are keyed by `file:line`
(file alone when the line is absent or 0) and sorted lexicographically by
key, the groups are sorted by severity (error before warn before info) and
then by code, and every finding's code has a group. -/
theorem aggregateByRule_grouping (findings : List Finding) :
    List.Sorted groupLe (aggregateByRule findings)
    ∧ (∀ v ∈ aggregateByRule findings, List.Sorted fvLe v.fileViolations)
    ∧ (∀ v ∈ aggregateByRule findings,
        (∃ f ∈ findings, f.code = v.rule ∧ f.level = v.severity)
        ∧ (∀ f ∈ findings, f.code = v.rule → severityOrder v.severity ≤ severityOrder f.level)
        ∧ v.count = (findings.filter (fun f => decide (f.code = v.rule))).length)
    ∧ (∀ v ∈ aggregateByRule findings, ∀ key d, (key, d) ∈ v.fileViolations →
        d.count = (findings.filter (fun f => decide (f.code = v.rule)
          && decide (f.file ≠ "") && decide (fileKeyOf f = key))).length)
    ∧ (∀ f ∈ findings, ∃ v ∈ aggregateByRule findings, v.rule = f.code) := by
  obtain ⟨hnd, hnone, hsome⟩ := buildGroups_inv findings
  haveI : IsTotal RuleViolation groupLe := ⟨groupLe_total_trans.1⟩
  haveI : IsTrans RuleViolation groupLe := ⟨fun a b c => groupLe_total_trans.2 a b c⟩
  haveI : IsTotal (String × FileViolation) fvLe := ⟨fvLe_total_trans.1⟩
  haveI : IsTrans (String × FileViolation) fvLe := ⟨fun a b c => fvLe_total_trans.2 a b c⟩
  have hmem : ∀ v, v ∈ aggregateByRule findings ↔
      v ∈ (buildGroups findings).map (fun e =>
        ({ rule := e.2.rule
           severity := e.2.severity
           count := e.2.count
           fileViolations := List.insertionSort fvLe e.2.fileViolations
           suggestion := if truthyStr e.2.suggestion then e.2.suggestion else none } :
          RuleViolation)) := by
    intro v
    exact (List.perm_insertionSort groupLe _).mem_iff
  refine ⟨?_, ?_, ?_, ?_, ?_⟩
  · unfold aggregateByRule
    exact List.sorted_insertionSort groupLe _
  · intro v hv
    rcases List.mem_map.mp ((hmem v).mp hv) with ⟨e, _, hvdef⟩
    rw [← hvdef]
    exact List.sorted_insertionSort fvLe _
  · intro v hv
    rcases List.mem_map.mp ((hmem v).mp hv) with ⟨e, he, hvdef⟩
    rcases e with ⟨k, g⟩
    have hlk : lookupA (buildGroups findings) k = some g :=
      lookupA_of_mem_nodup _ k g hnd he
    obtain ⟨hrule, hatt, hbound, hcount, _⟩ := hsome k g hlk
    have hvr : v.rule = k := by rw [← hvdef]; exact hrule
    have hvs : v.severity = g.severity := by rw [← hvdef]
    have hvc : v.count = g.count := by rw [← hvdef]
    refine ⟨?_, ?_, ?_⟩
    · rcases hatt with ⟨f, hf, hc, hl⟩
      exact ⟨f, hf, by rw [hvr]; exact hc, by rw [hvs]; exact hl⟩
    · intro f hf hc
      rw [hvs]
      exact hbound f hf (by rw [← hvr]; exact hc)
    · rw [hvc, hvr, hcount]
  · intro v hv key d hkd
    rcases List.mem_map.mp ((hmem v).mp hv) with ⟨e, he, hvdef⟩
    rcases e with ⟨k, g⟩
    have hlk : lookupA (buildGroups findings) k = some g :=
      lookupA_of_mem_nodup _ k g hnd he
    obtain ⟨hrule, _, _, _, hfvnd, _, hfvcount⟩ := hsome k g hlk
    have hvr : v.rule = k := by rw [← hvdef]; exact hrule
    have hkd' : (key, d) ∈ g.fileViolations := by
      have hfvs : v.fileViolations = List.insertionSort fvLe g.fileViolations := by
        rw [← hvdef]
      rw [hfvs] at hkd
      exact (List.perm_insertionSort fvLe g.fileViolations).subset hkd
    have hlkd : lookupA g.fileViolations key = some d :=
      lookupA_of_mem_nodup _ key d hfvnd hkd'
    rw [hvr]
    exact hfvcount key d hlkd
  · intro f hf
    rcases hl : lookupA (buildGroups findings) f.code with _ | g
    · exact absurd rfl (hnone f.code hl f hf)
    · have hm : (f.code, g) ∈ buildGroups findings := mem_of_lookupA _ f.code g hl
      obtain ⟨hrule, _, _, _, _⟩ := hsome f.code g hl
      refine ⟨{ rule := g.rule
                severity := g.severity
                count := g.count
                fileViolations := List.insertionSort fvLe g.fileViolations
                suggestion := if truthyStr g.suggestion then g.suggestion else none },
        ?_, hrule⟩
      rw [hmem]
      exact List.mem_map_of_mem _ hm

/-- Witness for C8 (amended) at a concrete two-rule finding list. -/
theorem aggregateByRule_grouping_witness :
    List.Sorted groupLe (aggregateByRule fsW)
    ∧ (∃ f ∈ fsW, f.code = "r2" ∧ f.level = Level.warn) := by
  constructor
  · exact (aggregateByRule_grouping fsW).1
  · have h := ((aggregateByRule_grouping fsW).2.2.1
      { rule := "r2"
        severity := .warn
        count := 2
        fileViolations := [("a.ts:3", { count := 1, lines := [3] }),
          ("b.ts:2", { count := 1, lines := [2] })]
        suggestion := none } (by decide)).1
    rcases h with ⟨f, hf, hc, hl⟩
    exact ⟨f, hf, hc, hl⟩

end HexValidator
